import Mathlib

/-!
Verification development for the clawfeed digest pipeline
(scripts/setup-cron.sh, embedded Node script).

The JavaScript source is shallowly embedded: strings are Lean `String`s
(manipulated as `List Char`), JS `Set`/`Map` become lists (JS sets and maps
iterate in insertion order, which the list encoding preserves), the SQLite
`pushed_items` table becomes a list of rows, and the cryptographic SHA-256
hex digest is an uninterpreted parameter `sha : String -> String` (no claim
depends on actual digest values, only on the digest being a function).
Fallible operations (JSON.parse, `new URL`, database reads) return `Option`
or `Except` values where the JS throws and catches.
-/

namespace Clawfeed

/-! ### Character and string helpers -/

/-- Character constant: the double quote. -/
def quoteChar : Char := Char.ofNat 34

/-- Character constant: the backslash. -/
def backslashChar : Char := Char.ofNat 92

/-- Character constant: the opening curly brace. -/
def openBraceChar : Char := Char.ofNat 123

/-- Character constant: the closing curly brace. -/
def closeBraceChar : Char := Char.ofNat 125

/-- Character constant: the apostrophe (single quote). -/
def aposChar : Char := Char.ofNat 39

/-- ASCII lower-casing of a character, matching both JS `toLowerCase` and
Lean `Char.toLower` on ASCII (all inputs exercised here are ASCII or CJK,
and CJK characters are fixed by both). -/
def lowChar (c : Char) : Char := Char.toLower c

/-- Lower-case a character list. -/
def lowerL (l : List Char) : List Char := l.map lowChar

/-- Lower-case a string (JS `String.prototype.toLowerCase`). -/
def lowerStr (s : String) : String := String.mk (lowerL s.data)

/-- JS whitespace class (the regex class backslash-s): ASCII whitespace plus
the Unicode space separators that appear in practice. -/
def isJsWs (c : Char) : Bool :=
  let n := c.toNat
  n = 32 ∨ n = 9 ∨ n = 10 ∨ n = 13 ∨ n = 11 ∨ n = 12 ∨
  n = 0xa0 ∨ n = 0x1680 ∨ (0x2000 ≤ n ∧ n ≤ 0x200a) ∨
  n = 0x2028 ∨ n = 0x2029 ∨ n = 0x202f ∨ n = 0x205f ∨ n = 0x3000 ∨
  n = 0xfeff

/-- JS `String.prototype.trim` on a character list. -/
def trimL (l : List Char) : List Char :=
  ((l.dropWhile isJsWs).reverse.dropWhile isJsWs).reverse

/-- JS `String.prototype.trim`. -/
def trimStr (s : String) : String := String.mk (trimL s.data)

/-- Drop all trailing slashes, the effect of `.replace(/\/+$/, '')`. -/
def stripTrailingSlashesL (l : List Char) : List Char :=
  (l.reverse.dropWhile (fun c => c = '/')).reverse

/-- Contiguous-occurrence check on character lists. -/
def listHasInfix (needle : List Char) : List Char → Bool
  | [] => needle.isEmpty
  | c :: t => needle.isPrefixOf (c :: t) || listHasInfix needle t

/-- JS `a.includes(b)`: `b` occurs contiguously inside `a`. -/
def strIncludes (a b : String) : Bool := listHasInfix b.data a.data

/-! ### URL parsing (`new URL(url)` restricted to the shapes the script
builds and tests).  The WHATWG parser is modelled for absolute URLs of the
form `scheme://authority/path...`: the scheme must be a nonempty run of
scheme characters starting with a letter and be followed by `://`; the
authority runs to the first `/`, `?` or `#`; userinfo (up to the last `@`)
and a `:port` suffix are removed from the authority; the hostname is
ASCII-lowercased; the pathname is the rest up to `?` or `#`, defaulting to
`/`.  Any other shape (in particular the empty string, or a string with no
scheme) throws in JS and is `none` here. -/

/-- Scheme characters per the URL standard. -/
def isSchemeChar (c : Char) : Bool :=
  ('a' ≤ c ∧ c ≤ 'z') ∨ ('A' ≤ c ∧ c ≤ 'Z') ∨ ('0' ≤ c ∧ c ≤ '9') ∨
  c = '+' ∨ c = '-' ∨ c = '.'

/-- ASCII letters. -/
def isAsciiAlpha (c : Char) : Bool :=
  ('a' ≤ c ∧ c ≤ 'z') ∨ ('A' ≤ c ∧ c ≤ 'Z')

/-- ASCII digits. -/
def isAsciiDigit (c : Char) : Bool := '0' ≤ c ∧ c ≤ '9'

/-- Characters that terminate the authority component. -/
def isAuthorityEnd (c : Char) : Bool := c = '/' ∨ c = '?' ∨ c = '#'

/-- Drop everything up to and including the last `@` (userinfo removal). -/
def afterLastAt (l : List Char) : List Char :=
  (l.reverse.takeWhile (fun c => c ≠ '@')).reverse

/-- Parse an absolute URL into `(hostname, pathname)`; `none` models the
`new URL` constructor throwing.  The scheme is the leading run of scheme
characters; it must be nonempty, start with a letter, and be followed by
the three characters `://`. -/
def parseUrlL (cs : List Char) : Option (List Char × List Char) :=
  let scheme := cs.takeWhile isSchemeChar
  let rest := cs.dropWhile isSchemeChar
  if scheme = [] then none
  else if ¬ isAsciiAlpha (scheme.headD ' ') then none
  else if rest.take 3 = [':', '/', '/'] then
    let r := rest.drop 3
    let auth := r.takeWhile (fun c => ¬ isAuthorityEnd c)
    let tail := r.dropWhile (fun c => ¬ isAuthorityEnd c)
    let hostPort := afterLastAt auth
    let host := hostPort.takeWhile (fun c => c ≠ ':')
    if host = [] then none
    else
      let path := tail.takeWhile (fun c => c ≠ '?' ∧ c ≠ '#')
      let pathname := if path = [] then ['/'] else path
      some (lowerL host, pathname)
  else none

/-- Source `normalizeUrlForHash` (setup-cron.sh):
try `new URL(url)` and return `(u.hostname + u.pathname)` with trailing
slashes stripped and lower-cased; on a parse failure fall back to
lower-casing the raw string. -/
def normalizeUrlForHash (url : String) : String :=
  (parseUrlL url.data).elim (String.mk (lowerL url.data))
    (fun hp => String.mk (lowerL (stripTrailingSlashesL (hp.1 ++ hp.2))))

/-- Source `normalizeUrl`, the local helper inside `deduplicateItems`; its
body is identical to `normalizeUrlForHash` (the catch branch
`url?.toLowerCase() || ''` agrees with `(url || '').toLowerCase()` on
strings). -/
def normalizeUrl (url : String) : String :=
  (parseUrlL url.data).elim (String.mk (lowerL url.data))
    (fun hp => String.mk (lowerL (stripTrailingSlashesL (hp.1 ++ hp.2))))

/-- Strip a leading `http://`, `https://`, optionally followed by `www.`
(the case-sensitive regex `^https?:\/\/(www\.)?` of the main loop). -/
def stripSchemeWww (l : List Char) : List Char :=
  match l with
  | 'h' :: 't' :: 't' :: 'p' :: rest =>
    match rest with
    | 's' :: ':' :: '/' :: '/' :: r =>
      (match r with
       | 'w' :: 'w' :: 'w' :: '.' :: r2 => r2
       | _ => r)
    | ':' :: '/' :: '/' :: r =>
      (match r with
       | 'w' :: 'w' :: 'w' :: '.' :: r2 => r2
       | _ => r)
    | _ => l
  | _ => l

/-- Batch-local URL normalization from the main loop (line 1290):
`url.replace(/\/+$/, '').replace(/^https?:\/\/(www\.)?/, '').toLowerCase()`. -/
def batchNormalizeUrl (url : String) : String :=
  String.mk (lowerL (stripSchemeWww (stripTrailingSlashesL url.data)))

/-! ### URL spelling constructors (used to state the normalization
equivalence over well-formed http(s) URL spellings) -/

/-- Hostname characters considered in the equivalence statement. -/
def isHostChar (c : Char) : Bool :=
  isAsciiAlpha c ∨ isAsciiDigit c ∨ c = '.' ∨ c = '-'

/-- Path characters considered in the equivalence statement. -/
def isPathChar (c : Char) : Bool :=
  isAsciiAlpha c ∨ isAsciiDigit c ∨ c = '/' ∨ c = '.' ∨ c = '-' ∨
  c = '_' ∨ c = '~'

/-- A URL spelling `scheme://host path slashes^k`. -/
def mkUrlSpelling (scheme host path : String) (k : Nat) : String :=
  scheme ++ "://" ++ host ++ path ++ String.mk (List.replicate k '/')

/-- Well-formed hostname: nonempty, over the hostname alphabet. -/
def HostOk (h : String) : Prop :=
  h.data ≠ [] ∧ ∀ c ∈ h.data, isHostChar c = true

/-- Well-formed path: empty or slash-led, over the path alphabet. -/
def PathOk (p : String) : Prop :=
  (p.data = [] ∨ ∃ t, p.data = '/' :: t) ∧ ∀ c ∈ p.data, isPathChar c = true

/-! ### Hashing -/

/-- Source `hashStr`: a SHA-256 hex digest truncated to 16 characters.  The
digest itself is the uninterpreted parameter `sha`; `hashStr` keeps the
truncation structure. -/
def hashStr (sha : String → String) (s : String) : String :=
  String.mk ((sha s).data.take 16)

/-! ### Title similarity utilities (shared by dedup and history check) -/

/-- Characters removed by `normalizeTitle`'s character class (JS whitespace
plus the listed CJK/ASCII punctuation and quote characters). -/
def isTitleStripChar (c : Char) : Bool :=
  isJsWs c ∨ c = '：' ∨ c = ':' ∨ c = '，' ∨ c = ',' ∨ c = '。' ∨ c = '.' ∨
  c = '！' ∨ c = '!' ∨ c = '？' ∨ c = '?' ∨ c = '、' ∨ c = '·' ∨
  c = '—' ∨ c = '–' ∨ c = '-' ∨ c = '\u201c' ∨ c = '\u201d' ∨
  c = '\u2018' ∨ c = '\u2019' ∨ c = quoteChar ∨ c = aposChar

/-- Source `normalizeTitle`: strip the punctuation class, then lower-case. -/
def normalizeTitle (title : String) : String :=
  String.mk (lowerL (title.data.filter (fun c => ¬ isTitleStripChar c)))

/-- Body characters of the number pattern, the class `[\\d,.]`. -/
def isNumBody (c : Char) : Bool := isAsciiDigit c ∨ c = ',' ∨ c = '.'

/-- Unit characters of the number pattern, the class `[亿万千百kmbgt%％]`
under the `i` flag. -/
def isNumUnit (c : Char) : Bool :=
  c = '亿' ∨ c = '万' ∨ c = '千' ∨ c = '百' ∨ c = '%' ∨ c = '％' ∨
  c = 'k' ∨ c = 'm' ∨ c = 'b' ∨ c = 'g' ∨ c = 't' ∨
  c = 'K' ∨ c = 'M' ∨ c = 'B' ∨ c = 'G' ∨ c = 'T'

/-- Tail characters of the dollar alternative, the class `[kmbgt]` under
the `i` flag. -/
def isDollarUnit (c : Char) : Bool :=
  c = 'k' ∨ c = 'm' ∨ c = 'b' ∨ c = 'g' ∨ c = 't' ∨
  c = 'K' ∨ c = 'M' ∨ c = 'B' ∨ c = 'G' ∨ c = 'T'

/-- Characters of the name pattern body, the class `[a-z0-9.]` under `i`. -/
def isNameChar (c : Char) : Bool := isAsciiAlpha c ∨ isAsciiDigit c ∨ c = '.'

/-- Alphanumeric (the final `[a-z0-9]` of the name pattern under `i`). -/
def isAlnum (c : Char) : Bool := isAsciiAlpha c ∨ isAsciiDigit c

/-- CJK unified ideographs, the class `[\\u4e00-\\u9fff]`. -/
def isCjk (c : Char) : Bool := 0x4e00 ≤ c.toNat ∧ c.toNat ≤ 0x9fff

/-- Global scan for `/\\d[\\d,.]*[亿万千百kmbgt%％]+|\\$[\\d,.]+[kmbgt]*\/gi`:
at each position try the first alternative (digit, body run, a nonempty
unit run — the two classes are disjoint, so the greedy run needs no
backtracking), then the dollar alternative; on failure advance one
character, on success resume after the match. -/
def scanNumbers : Nat → List Char → List (List Char)
  | 0, _ => []
  | _ + 1, [] => []
  | fuel + 1, c :: rest =>
    if isAsciiDigit c then
      let body := (c :: rest).takeWhile isNumBody
      let afterBody := (c :: rest).dropWhile isNumBody
      let units := afterBody.takeWhile isNumUnit
      if units = [] then scanNumbers fuel rest
      else (body ++ units) :: scanNumbers fuel (afterBody.dropWhile isNumUnit)
    else if c = '$' then
      let body := rest.takeWhile isNumBody
      if body = [] then scanNumbers fuel rest
      else
        let afterBody := rest.dropWhile isNumBody
        let units := afterBody.takeWhile isDollarUnit
        ('$' :: body ++ units) :: scanNumbers fuel (afterBody.dropWhile isDollarUnit)
    else scanNumbers fuel rest

/-- Drop trailing dots of a name-pattern run (the only non-alphanumeric
characters a run can end with). -/
def dropTrailingDots (l : List Char) : List Char :=
  (l.reverse.dropWhile (fun c => c = '.')).reverse

/-- Global scan for `/[a-z][a-z0-9.]*[a-z0-9]/gi`: at a letter take the
maximal run of name characters, trim to the last alphanumeric (greedy with
backtracking over the trailing dots); a match needs length at least two,
and scanning resumes right after the matched text. -/
def scanNames : Nat → List Char → List (List Char)
  | 0, _ => []
  | _ + 1, [] => []
  | fuel + 1, c :: rest =>
    if isAsciiAlpha c then
      let run := c :: rest.takeWhile isNameChar
      let m := dropTrailingDots run
      if 2 ≤ m.length then m :: scanNames fuel ((c :: rest).drop m.length)
      else scanNames fuel rest
    else scanNames fuel rest

/-- Global scan for `/[\\u4e00-\\u9fff]\x7b2,6\x7d/g`: greedy runs of two to
six CJK characters. -/
def scanCjk : Nat → List Char → List (List Char)
  | 0, _ => []
  | _ + 1, [] => []
  | fuel + 1, c :: rest =>
    if isCjk c then
      let run := c :: rest.takeWhile isCjk
      if 2 ≤ run.length then
        (run.take 6) :: scanCjk fuel ((c :: rest).drop (min run.length 6))
      else scanCjk fuel rest
    else scanCjk fuel rest

/-- Extracted entity tokens of a title. -/
structure KeyEntities where
  numbers : List String
  names : List String
  cnNames : List String
deriving Repr, DecidableEq

/-- Source `extractKeyEntities`: regex token scans over the normalized
title, with numbers and names lower-cased. -/
def extractKeyEntities (title : String) : KeyEntities :=
  let norm := (normalizeTitle title).data
  { numbers := (scanNumbers (norm.length + 1) norm).map (fun l => String.mk (lowerL l))
    names := (scanNames (norm.length + 1) norm).map (fun l => String.mk (lowerL l))
    cnNames := (scanCjk (norm.length + 1) norm).map String.mk }

/-- Shared-name test of the same-event branch: some name of `x` equals or
contains or is contained in some name of `y`. -/
def namesShareEither (x y : List String) : Bool :=
  x.any (fun n => y.any (fun m => n = m ∨ strIncludes n m ∨ strIncludes m n))

/-- Shared significant name (length at least 4 on both sides). -/
def namesShareLong (x y : List String) : Bool :=
  x.any (fun n => decide (4 ≤ n.length) &&
    y.any (fun m => decide (4 ≤ m.length) && (n = m ∨ strIncludes n m ∨ strIncludes m n)))

/-- Shared number token (exact membership). -/
def numbersShare (x y : List String) : Bool := x.any (fun n => y.contains n)

/-- All consecutive character pairs of a list, in order. -/
def bigramsL : List Char → List String
  | c1 :: c2 :: rest => String.mk [c1, c2] :: bigramsL (c2 :: rest)
  | _ => []

/-- The bigram set of a string, as a duplicate-free list (only membership
and cardinality are used, mirroring the JS `Set`). -/
def bigramSet (s : String) : List String := (bigramsL s.data).dedup

/-- Final similarity branch: character-bigram Jaccard overlap above 0.35.
The JS comparison `intersection / union > 0.35` is on IEEE doubles; for the
integer sizes reachable here it coincides with the exact rational
comparison `20 * intersection > 7 * union`, which is how it is modelled. -/
def bigramSimilar (na nb : String) : Bool :=
  let ba := bigramSet na
  let bb := bigramSet nb
  if ba.length = 0 ∨ bb.length = 0 then false
  else
    let inter := (ba.filter (fun g => bb.contains g)).length
    let union := ba.length + bb.length - inter
    decide (0 < union) && decide (20 * inter > 7 * union)

/-- Source `titlesAreSimilar`.  The early-return chain of the source is
written as one guarded disjunction: every `return true` branch becomes a
disjunct, the empty-normalization guard stays in front, and the final
bigram test is the last disjunct. -/
def titlesAreSimilar (a b : String) : Bool :=
  let na := normalizeTitle a
  let nb := normalizeTitle b
  let ea := extractKeyEntities a
  let eb := extractKeyEntities b
  !(na = "" ∨ nb = "") &&
    ((na = nb : Bool) ||
     strIncludes na nb || strIncludes nb na ||
     (!(ea.names = []) && !(eb.names = []) &&
      !(ea.numbers = []) && !(eb.numbers = []) &&
      namesShareEither ea.names eb.names && numbersShare ea.numbers eb.numbers) ||
     (!(ea.names = []) && !(eb.names = []) &&
      namesShareLong ea.names eb.names &&
      decide (na.length < 30) && decide (nb.length < 30)) ||
     bigramSimilar na nb)

/-! ### Push history store (SQLite table `pushed_items`)

The table is a list of rows in insertion (autoincrement) order.  Timestamps
are natural numbers; the SQL window condition
`pushed_at >= datetime('now', '-H hours')` becomes `cutoff <= pushedAt`
for a caller-supplied cutoff. -/

/-- A fetched item as the pipeline sees it (absent JS fields are the empty
string, which is exactly what the source's `|| ''` fallbacks produce). -/
structure Item where
  title : String := ""
  url : String := ""
  description : String := ""
  pubDate : String := ""
deriving Repr, DecidableEq

/-- A row of the `pushed_items` table. -/
structure PushRow where
  urlHash : String
  titleHash : String
  title : String
  url : String
  digestType : String
  pushedAt : Nat
deriving Repr, DecidableEq

/-- Title normalization used for `title_hash`:
`(item.title || '').replace(/\\s+/g, '').toLowerCase()`. -/
def normalizeTitleForHash (t : String) : String :=
  String.mk (lowerL (t.data.filter (fun c => ¬ isJsWs c)))

/-- The row `recordPushedItems` builds for one item at time `t`. -/
def rowOfItem (sha : String → String) (item : Item) (digestType : String)
    (t : Nat) : PushRow :=
  { urlHash := hashStr sha (normalizeUrlForHash item.url)
    titleHash := hashStr sha (normalizeTitleForHash item.title)
    title := item.title
    url := item.url
    digestType := digestType
    pushedAt := t }

/-- Source `recordPushedItems`: a transactional loop of
`INSERT OR IGNORE` statements; the unique index on `url_hash` makes an
insert a no-op whenever a row with the same `url_hash` already exists. -/
def recordPushedItems (sha : String → String) (db : List PushRow)
    (items : List Item) (digestType : String) (t : Nat) : List PushRow :=
  items.foldl
    (fun acc item =>
      let r := rowOfItem sha item digestType t
      if acc.any (fun q => q.urlHash = r.urlHash) then acc else acc ++ [r])
    db

/-- The snapshot `loadPushedHistory` returns (JS sets become lists; only
membership is consulted). -/
structure HistorySnapshot where
  urlHashes : List String
  titleHashes : List String
  titles : List String
deriving Repr, DecidableEq

/-- The empty snapshot (the catch branch and the missing-database default
of the main loop). -/
def emptyHistory : HistorySnapshot := { urlHashes := [], titleHashes := [], titles := [] }

/-- Source `loadPushedHistory` on a readable store: select the rows inside
the window, collect their url hashes, title hashes, and (truthy) titles. -/
def loadPushedHistory (db : List PushRow) (cutoff : Nat) : HistorySnapshot :=
  let rows := db.filter (fun r => cutoff ≤ r.pushedAt)
  { urlHashes := rows.map (fun r => r.urlHash)
    titleHashes := rows.map (fun r => r.titleHash)
    titles := (rows.map (fun r => r.title)).filter (fun t => t ≠ "") }

/-- Source `loadPushedHistory` with its try/catch: a failing read (the
`Except.error` case) degrades to the empty snapshot instead of raising. -/
def loadPushedHistoryE (store : Except Unit (List PushRow)) (cutoff : Nat) :
    HistorySnapshot :=
  match store with
  | .error _ => emptyHistory
  | .ok db => loadPushedHistory db cutoff

/-- Main-loop wrapper: `getPushDbAsync` yields `none` for a missing or
unopenable store, and the orchestrator then keeps the empty history. -/
def loadHistoryOrEmpty (pushDb : Option (List PushRow)) (cutoff : Nat) :
    HistorySnapshot :=
  match pushDb with
  | none => emptyHistory
  | some db => loadPushedHistory db cutoff

/-- Source `isItemPushedBefore`: url-hash membership, then title-hash
membership, then fuzzy title similarity against the stored titles. -/
def isItemPushedBefore (sha : String → String) (history : HistorySnapshot)
    (item : Item) : Bool :=
  let urlHash := hashStr sha (normalizeUrlForHash item.url)
  if history.urlHashes.contains urlHash then true
  else
    let titleHash := hashStr sha (normalizeTitleForHash item.title)
    if history.titleHashes.contains titleHash then true
    else if item.title ≠ "" ∧ history.titles ≠ [] then
      history.titles.any (fun pushedTitle => titlesAreSimilar item.title pushedTitle)
    else false

/-! ### Pre-synthesis deduplication (main loop, step 2.6) -/

/-- The staleness drop condition of the pre-dedup loop: a truthy `pubDate`
that parses (`parseDate` models `new Date(..).getTime()`, `none` being
`NaN`) to a time more than `maxAgeMs` before `now`. -/
def staleDrop (parseDate : String → Option Int) (now maxAgeMs : Int)
    (item : Item) : Bool :=
  if item.pubDate ≠ "" then
    match parseDate item.pubDate with
    | some pubTime => decide (now - pubTime > maxAgeMs)
    | none => false
  else false

/-- One iteration of the pre-dedup loop over state
(seen batch URLs, surviving items). -/
def preDedupStep (sha : String → String) (hasDb : Bool)
    (history : HistorySnapshot) (parseDate : String → Option Int)
    (now maxAgeMs : Int) (st : List String × List Item) (item : Item) :
    List String × List Item :=
  let seen := st.1
  let out := st.2
  if staleDrop parseDate now maxAgeMs item then (seen, out)
  else
    let normUrl := if item.url ≠ "" then batchNormalizeUrl item.url else ""
    if normUrl ≠ "" ∧ seen.contains normUrl then (seen, out)
    else
      let seen2 := if normUrl ≠ "" then seen ++ [normUrl] else seen
      if hasDb ∧ isItemPushedBefore sha history item then (seen2, out)
      else (seen2, out ++ [item])

/-- Source main-loop pre-dedup (staleness filter, batch URL dedup, history
suppression, in that order). -/
def preDedup (sha : String → String) (hasDb : Bool)
    (history : HistorySnapshot) (parseDate : String → Option Int)
    (now maxAgeMs : Int) (items : List Item) : List Item :=
  (items.foldl (preDedupStep sha hasDb history parseDate now maxAgeMs) ([], [])).2

/-! ### JSON values and `JSON.parse`

A strict recursive-descent JSON parser modelling `JSON.parse`: it returns
`none` exactly where `JSON.parse` throws (modulo the comments below).
Numbers keep their digit lexeme — the pipeline never computes with them,
only tests truthiness.  Recursion is fuelled; the fuel supplied by
`parseJsonStr` exceeds any possible call depth for the given input. -/

inductive Json where
  | null : Json
  | bool : Bool → Json
  | num : List Char → Json
  | str : String → Json
  | arr : List Json → Json
  | obj : List (String × Json) → Json
deriving Repr

/-- JSON whitespace (the four characters the JSON grammar allows). -/
def isJsonWsC (c : Char) : Bool := c = ' ' ∨ c = '\t' ∨ c = '\n' ∨ c = '\r'

/-- Hexadecimal digit value. -/
def hexVal (c : Char) : Option Nat :=
  if isAsciiDigit c then some (c.toNat - 48)
  else if 'a' ≤ c ∧ c ≤ 'f' then some (c.toNat - 87)
  else if 'A' ≤ c ∧ c ≤ 'F' then some (c.toNat - 55)
  else none

/-- String body parser: characters up to the closing quote, decoding the
JSON escapes and rejecting raw control characters.  A `\u` escape naming a
lone surrogate is rejected here (a `Char` cannot hold it) while JS would
keep it; no input in this development contains `\u` escapes at all. -/
def pString : Nat → List Char → Option (List Char × List Char)
  | 0, _ => none
  | _ + 1, [] => none
  | fuel + 1, c :: r =>
    if c = quoteChar then some ([], r)
    else if c = backslashChar then
      match r with
      | [] => none
      | e :: r2 =>
        if e = quoteChar ∨ e = backslashChar ∨ e = '/' then
          (pString fuel r2).map (fun p => (e :: p.1, p.2))
        else if e = 'b' then (pString fuel r2).map (fun p => ('\x08' :: p.1, p.2))
        else if e = 'f' then (pString fuel r2).map (fun p => ('\x0c' :: p.1, p.2))
        else if e = 'n' then (pString fuel r2).map (fun p => ('\n' :: p.1, p.2))
        else if e = 'r' then (pString fuel r2).map (fun p => ('\r' :: p.1, p.2))
        else if e = 't' then (pString fuel r2).map (fun p => ('\t' :: p.1, p.2))
        else if e = 'u' then
          match r2 with
          | h1 :: h2 :: h3 :: h4 :: r3 =>
            match hexVal h1, hexVal h2, hexVal h3, hexVal h4 with
            | some v1, some v2, some v3, some v4 =>
              let code := ((v1 * 16 + v2) * 16 + v3) * 16 + v4
              if code < 0xd800 ∨ (0xe000 ≤ code ∧ code < 0x110000) then
                (pString fuel r3).map (fun p =>
                  (Char.ofNat code :: p.1, p.2))
              else none
            | _, _, _, _ => none
          | _ => none
        else none
    else if c.toNat < 0x20 then none
    else (pString fuel r).map (fun p => (c :: p.1, p.2))

/-- Number lexeme parser: `-? (0 | [1-9][0-9]*) (. [0-9]+)? ([eE][+-]?[0-9]+)?`.
A malformed continuation (for example a dot with no digits) is simply not
consumed; the stray character then fails the surrounding grammar exactly
where `JSON.parse` reports its error. -/
def pNumber (cs : List Char) : Option (List Char × List Char) :=
  let (sign, r1) :=
    match cs with
    | '-' :: r => (['-'], r)
    | _ => (([] : List Char), cs)
  match r1 with
  | '0' :: r2 => some (sign ++ ['0'], r2)
  | d :: _ =>
    if isAsciiDigit d then
      some (sign ++ r1.takeWhile isAsciiDigit, r1.dropWhile isAsciiDigit)
    else none
  | [] => none

/-- Optional fraction part appended to a number lexeme. -/
def pFrac (lex rest : List Char) : List Char × List Char :=
  match rest with
  | '.' :: r =>
    let ds := r.takeWhile isAsciiDigit
    if ds = [] then (lex, rest)
    else (lex ++ '.' :: ds, r.dropWhile isAsciiDigit)
  | _ => (lex, rest)

/-- Optional exponent part appended to a number lexeme. -/
def pExp (lex rest : List Char) : List Char × List Char :=
  match rest with
  | e :: r =>
    if e = 'e' ∨ e = 'E' then
      let (sg, r2) :=
        match r with
        | '+' :: rr => (['+'], rr)
        | '-' :: rr => (['-'], rr)
        | _ => (([] : List Char), r)
      let ds := r2.takeWhile isAsciiDigit
      if ds = [] then (lex, rest)
      else (lex ++ e :: sg ++ ds, r2.dropWhile isAsciiDigit)
    else (lex, rest)
  | [] => (lex, rest)

/-- Full number parse. -/
def pNum (cs : List Char) : Option (List Char × List Char) :=
  match pNumber cs with
  | none => none
  | some (lex, rest) =>
    let (lex2, rest2) := pFrac lex rest
    let (lex3, rest3) := pExp lex2 rest2
    some (lex3, rest3)

mutual

/-- Value parser. -/
def pValue : Nat → List Char → Option (Json × List Char)
  | 0, _ => none
  | fuel + 1, cs =>
    let cs1 := cs.dropWhile isJsonWsC
    match cs1 with
    | [] => none
    | 'n' :: 'u' :: 'l' :: 'l' :: r => some (.null, r)
    | 't' :: 'r' :: 'u' :: 'e' :: r => some (.bool true, r)
    | 'f' :: 'a' :: 'l' :: 's' :: 'e' :: r => some (.bool false, r)
    | '[' :: r =>
      let r1 := r.dropWhile isJsonWsC
      (match r1 with
       | ']' :: r2 => some (.arr [], r2)
       | _ => pElems fuel r [])
    | c :: r =>
      if c = quoteChar then
        (pString fuel r).map (fun p => (.str (String.mk p.1), p.2))
      else if c = openBraceChar then
        let r1 := r.dropWhile isJsonWsC
        (match r1 with
         | d :: r2 =>
           if d = closeBraceChar then some (.obj [], r2)
           else pMembers fuel r []
         | [] => none)
      else if c = '-' ∨ isAsciiDigit c then
        (pNum cs1).map (fun p => (.num p.1, p.2))
      else none

/-- Array elements after the opening bracket (nonempty case). -/
def pElems : Nat → List Char → List Json → Option (Json × List Char)
  | 0, _, _ => none
  | fuel + 1, cs, acc =>
    match pValue fuel cs with
    | none => none
    | some (v, rest) =>
      let rest1 := rest.dropWhile isJsonWsC
      match rest1 with
      | ',' :: r2 => pElems fuel r2 (acc ++ [v])
      | ']' :: r2 => some (.arr (acc ++ [v]), r2)
      | _ => none

/-- Object members after the opening brace (nonempty case). -/
def pMembers : Nat → List Char → List (String × Json) → Option (Json × List Char)
  | 0, _, _ => none
  | fuel + 1, cs, acc =>
    let cs1 := cs.dropWhile isJsonWsC
    match cs1 with
    | [] => none
    | c :: r =>
      if c = quoteChar then
        match pString fuel r with
        | none => none
        | some (k, rest) =>
          let rest1 := rest.dropWhile isJsonWsC
          match rest1 with
          | ':' :: r2 =>
            (match pValue fuel r2 with
             | none => none
             | some (v, rest2) =>
               let rest3 := rest2.dropWhile isJsonWsC
               match rest3 with
               | ',' :: r3 => pMembers fuel r3 (acc ++ [(String.mk k, v)])
               | d :: r3 =>
                 if d = closeBraceChar then some (.obj (acc ++ [(String.mk k, v)]), r3)
                 else none
               | [] => none)
          | _ => none
      else none

end

/-- Source `JSON.parse(candidate)`: parse one value, allow trailing JSON
whitespace only. -/
def parseJsonStr (s : String) : Option Json :=
  match pValue (4 * s.length + 16) s.data with
  | some (v, rest) => if rest.dropWhile isJsonWsC = [] then some v else none
  | none => none

/-- JS truthiness of a parsed JSON value (`undefined` is handled by the
callers through `Option`).  A number is falsy exactly when all its mantissa
digits are zero. -/
def jsonTruthy : Json → Bool
  | .null => false
  | .bool b => b
  | .num lex => lex.any (fun c => isAsciiDigit c ∧ c ≠ '0')
  | .str s => decide (s ≠ "")
  | .arr _ => true
  | .obj _ => true

/-- Property access `i.k` on a parsed value: only objects have fields, and
`JSON.parse` keeps the last of duplicate keys. -/
def getField (j : Json) (k : String) : Option Json :=
  match j with
  | .obj fields => ((fields.reverse).find? (fun e => e.1 = k)).map (fun e => e.2)
  | _ => none

/-- Truthiness of `i.k` (missing field, i.e. `undefined`, is falsy). -/
def fieldTruthy (j : Json) (k : String) : Bool :=
  (getField j k).elim false jsonTruthy

/-! ### LLM JSON quote repair (`fixLlmJsonQuotes`) -/

/-- The full-width and typographic double quotes replaced globally
(U+201C, U+201D, U+201E, U+2033, U+FF02). -/
def isCurlyQuote (c : Char) : Bool :=
  c.toNat = 0x201c ∨ c.toNat = 0x201d ∨ c.toNat = 0x201e ∨
  c.toNat = 0x2033 ∨ c.toNat = 0xff02

/-- Global replacement of each curly quote by a backslash-escaped straight
quote. -/
def replaceCurlyQuotes (l : List Char) : List Char :=
  l.flatMap (fun c => if isCurlyQuote c then [backslashChar, quoteChar] else [c])

/-- The five field names of the key-line pattern, in alternation order. -/
def repairKeys : List (List Char) :=
  ["title".data, "url".data, "summary".data, "category".data, "source".data]

/-- Match one of the field names as a literal at the head of the input. -/
def matchFieldName (cs : List Char) : Option (List Char × List Char) :=
  (repairKeys.find? (fun k => k.isPrefixOf cs)).map (fun k => (k, cs.drop k.length))

/-- Match the line against
`^(\s*"(?:title|url|summary|category|source)"\s*:\s*")(.*)(",?\s*)$`,
returning the three capture groups.  The greedy `(.*)` makes the suffix
group start at the rightmost quote that is followed by an optional comma
and only whitespace, which is computed from the end of the line. -/
def matchKeyLine (cs : List Char) : Option (List Char × List Char × List Char) :=
  let ws1 := cs.takeWhile isJsWs
  match cs.dropWhile isJsWs with
  | [] => none
  | c :: r1 =>
    if c = quoteChar then
      match matchFieldName r1 with
      | none => none
      | some (key, r2) =>
        match r2 with
        | [] => none
        | d :: r3 =>
          if d = quoteChar then
            let ws2 := r3.takeWhile isJsWs
            match r3.dropWhile isJsWs with
            | ':' :: r5 =>
              let ws3 := r5.takeWhile isJsWs
              match r5.dropWhile isJsWs with
              | [] => none
              | e :: rval =>
                if e = quoteChar then
                  let revv := rval.reverse
                  let wsEnd := revv.takeWhile isJsWs
                  let rev1 := revv.dropWhile isJsWs
                  let (comma, rev2) :=
                    match rev1 with
                    | ',' :: rr => ([','], rr)
                    | _ => (([] : List Char), rev1)
                  match rev2 with
                  | [] => none
                  | f :: revValue =>
                    if f = quoteChar then
                      some (ws1 ++ [quoteChar] ++ key ++ [quoteChar] ++ ws2 ++
                              [':'] ++ ws3 ++ [quoteChar],
                            revValue.reverse,
                            [quoteChar] ++ comma ++ wsEnd.reverse)
                    else none
                else none
            | _ => none
          else none
      else none

/-- The value repair `value.replace(/(?<!\\)"/g, '\\"')`: escape every
quote whose preceding character in the original text is not a backslash. -/
def escUnescapedQuotes : Option Char → List Char → List Char
  | _, [] => []
  | prev, c :: r =>
    if c = quoteChar ∧ ¬ prev = some backslashChar then
      backslashChar :: quoteChar :: escUnescapedQuotes (some c) r
    else c :: escUnescapedQuotes (some c) r

/-- Per-line repair: on a key-pattern line whose value contains unescaped
quotes, rebuild the line with the escaped value; otherwise leave the line
unchanged. -/
def fixKeyLine (line : List Char) : List Char :=
  match matchKeyLine line with
  | none => line
  | some (pre, value, suf) =>
    let fixed := escUnescapedQuotes none value
    if fixed ≠ value then pre ++ fixed ++ suf else line

/-- The JS `text.split('\n')` on character lists: the resulting list of
lines is always nonempty. -/
def splitOnNewline : List Char → List (List Char)
  | [] => [[]]
  | c :: rest =>
    match splitOnNewline rest with
    | [] => [[c]]
    | l :: ls => if c = '\n' then [] :: l :: ls else (c :: l) :: ls

/-- The JS `lines.join('\n')`. -/
def joinNewline : List (List Char) → List Char
  | [] => []
  | [l] => l
  | l :: ls => l ++ '\n' :: joinNewline ls

/-- Source `fixLlmJsonQuotes`: global curly-quote replacement, then the
line-by-line key-pattern repair (split on newlines, fix each line, join
with newlines). -/
def fixLlmJsonQuotes (text : String) : String :=
  String.mk (joinNewline
    ((splitOnNewline (replaceCurlyQuotes text.data)).map fixKeyLine))

/-! ### Parse-candidate construction (`generateDigest`, lines 975-992) -/

/-- Character constant: the backtick. -/
def backtickChar : Char := Char.ofNat 96

/-- Drop a case-insensitive `json` tag if present (the `(?:json)?` group). -/
def dropJsonTag (l : List Char) : List Char :=
  match l with
  | a :: b :: c :: d :: r =>
    if lowChar a = 'j' ∧ lowChar b = 's' ∧ lowChar c = 'o' ∧ lowChar d = 'n'
    then r else l
  | _ => l

/-- The replacement `.replace(/^```(?:json)?\s*/i, '')`. -/
def stripFenceStart (s : String) : String :=
  match s.data with
  | a :: b :: c :: r =>
    if a = backtickChar ∧ b = backtickChar ∧ c = backtickChar then
      String.mk ((dropJsonTag r).dropWhile isJsWs)
    else s
  | _ => s

/-- The replacement `.replace(/\s*```\s*$/, '')`. -/
def stripFenceEnd (s : String) : String :=
  let rev1 := s.data.reverse.dropWhile isJsWs
  match rev1 with
  | a :: b :: c :: r =>
    if a = backtickChar ∧ b = backtickChar ∧ c = backtickChar then
      String.mk ((r.dropWhile isJsWs).reverse)
    else s
  | _ => s

/-- The `stripped` candidate. -/
def strippedCandidate (s : String) : String :=
  trimStr (stripFenceEnd (stripFenceStart s))

/-- Index of the first occurrence of a character. -/
def indexOfChar (l : List Char) (c : Char) : Option Nat :=
  l.findIdx? (fun x => x = c)

/-- Index of the last occurrence of a character. -/
def lastIndexOfChar (l : List Char) (c : Char) : Option Nat :=
  (l.reverse.findIdx? (fun x => x = c)).map (fun i => l.length - 1 - i)

/-- The `extracted` candidate,
`rawContent.replace(/^[^[]*(\[[\s\S]*\])[^}\]]*$/, '$1').trim()`: when the
whole string splits as prose, a first-`[`-to-last-`]` block, and a tail
free of `}` and `]`, keep just the block; otherwise the replace is a no-op. -/
def extractedCandidate (s : String) : String :=
  let cs := s.data
  match indexOfChar cs '[' with
  | none => trimStr s
  | some i =>
    match lastIndexOfChar cs ']' with
    | none => trimStr s
    | some j =>
      if i < j then
        let tail := cs.drop (j + 1)
        if tail.any (fun c => c = closeBraceChar ∨ c = ']') then trimStr s
        else trimStr (String.mk ((cs.drop i).take (j + 1 - i)))
      else trimStr s

/-- The `aggressive` candidate,
`.replace(/^[\s\S]*?(?=\[)/, '').replace(/\][^}\]]*$/, ']').trim()`:
drop everything before the first `[`, then truncate just after the last
`]` provided no `}` or `]` follows it. -/
def aggressiveCandidate (s : String) : String :=
  let cs := s.data
  let cs1 :=
    match indexOfChar cs '[' with
    | none => cs
    | some i => cs.drop i
  let cs2 :=
    match lastIndexOfChar cs1 ']' with
    | none => cs1
    | some j =>
      let tail := cs1.drop (j + 1)
      if tail.any (fun c => c = closeBraceChar ∨ c = ']') then cs1
      else cs1.take (j + 1)
  trimStr (String.mk cs2)

/-- First occurrence index of a substring, scanning left to right. -/
def subIdxAux (needle : List Char) : List Char → Nat → Option Nat
  | [], i => if needle.isEmpty then some i else none
  | c :: t, i =>
    if needle.isPrefixOf (c :: t) then some i else subIdxAux needle t (i + 1)

/-- First occurrence index of a substring at or after `start`. -/
def indexOfSubFrom (l needle : List Char) (start : Nat) : Option Nat :=
  (subIdxAux needle (l.drop start) 0).map (fun i => i + start)

/-- A double-quoted literal as a character list. -/
def quoted (w : String) : List Char := [quoteChar] ++ w.data ++ [quoteChar]

/-- The `singleObj` candidate: the match of
`/\{[\s\S]*"title"[\s\S]*"url"[\s\S]*\}/` (first `{` through the last `}`,
with a `"title"` then a `"url"` occurrence in between) wrapped in square
brackets, or the empty string when there is no match. -/
def singleObjectCandidate (s : String) : String :=
  let cs := s.data
  match indexOfChar cs openBraceChar with
  | none => ""
  | some i =>
    match indexOfSubFrom cs (quoted "title") (i + 1) with
    | none => ""
    | some t =>
      match indexOfSubFrom cs (quoted "url") (t + 7) with
      | none => ""
      | some u =>
        match lastIndexOfChar cs closeBraceChar with
        | none => ""
        | some j =>
          if u + 5 ≤ j then
            String.mk ('[' :: ((cs.drop i).take (j + 1 - i)) ++ [']'])
          else ""

/-- The base candidate list `[rawContent, stripped, extracted, aggressive,
singleObj].filter(Boolean)` (the model reply is nonempty by the guard at
line 973; `filter(Boolean)` drops empty strings). -/
def baseCandidates (rawContent : String) : List String :=
  [rawContent, strippedCandidate rawContent, extractedCandidate rawContent,
   aggressiveCandidate rawContent, singleObjectCandidate rawContent].filter
    (fun c => c ≠ "")

/-- Each base candidate followed by its quote-repaired variant when the
repair changes it. -/
def jsonCandidates (rawContent : String) : List String :=
  (baseCandidates rawContent).flatMap (fun c =>
    let fixed := fixLlmJsonQuotes c
    if fixed ≠ c then [c, fixed] else [c])

/-- One cascade step: parse the candidate, wrap a lone object into an
array, keep the items with truthy `title`, `url` and `summary`; succeed
only when at least one item survives. -/
def validItemsOf (candidate : String) : Option (List Json) :=
  match parseJsonStr candidate with
  | none => none
  | some parsed =>
    let items := match parsed with | .arr l => l | v => [v]
    match items.filter (fun i =>
        fieldTruthy i "title" && fieldTruthy i "url" && fieldTruthy i "summary") with
    | [] => none
    | v :: rest => some (v :: rest)

/-- First candidate that yields valid items (the `for ... break` loop). -/
def firstValid : List String → Option (List Json)
  | [] => none
  | c :: rest =>
    match validItemsOf c with
    | some v => some v
    | none => firstValid rest

/-- The structured-parse stage of `generateDigest` applied to the trimmed
model reply: `none` is the raw-text fallback (the digest keeps the reply as
plain text with empty metadata and no structured items). -/
def parseStructuredItems (rawContent : String) : Option (List Json) :=
  firstValid (jsonCandidates rawContent)

/-! ### Post-synthesis deduplication (`deduplicateItems`) -/

/-- A structured item from the model reply.  The JS objects reaching
`deduplicateItems` carry these five fields; string operations in the dedup
and markdown stages assume string values. -/
structure SynItem where
  title : String
  url : String
  summary : String
  category : String
  source : String
deriving Repr, DecidableEq

/-- Category tag of high-priority items. -/
def hotCategory : String := "重要动态"

/-- A string field of a parsed item; `none` for a missing or non-string
value. -/
def jsonStrField (j : Json) (k : String) : Option String :=
  match getField j k with
  | some (.str s) => some s
  | _ => none

/-- Decode a valid parsed item into a `SynItem`.  The validity filter
already guarantees truthy `title`, `url`, `summary`; a truthy non-string
value in one of them would crash the JS pipeline in the subsequent string
operations, and is mapped to `none` here. -/
def jsonToSynItem (j : Json) : Option SynItem :=
  match jsonStrField j "title", jsonStrField j "url", jsonStrField j "summary" with
  | some t, some u, some s =>
    some { title := t, url := u, summary := s,
           category := (jsonStrField j "category").getD "",
           source := (jsonStrField j "source").getD "" }
  | _, _, _ => none

/-- The `seen` map of `deduplicateItems` (a JS `Map` in insertion order). -/
abbrev SeenMap := List (String × SynItem)

/-- `seen.get(k)` after a `seen.has(k)` check. -/
def mapLookup (seen : SeenMap) (k : String) : Option SynItem :=
  (seen.find? (fun e => e.1 = k)).map (fun e => e.2)

/-- `seen.set(k, v)`: update in place when the key exists, else append. -/
def mapSet (seen : SeenMap) (k : String) (v : SynItem) : SeenMap :=
  if seen.any (fun e => e.1 = k) then
    seen.map (fun e => if e.1 = k then (k, v) else e)
  else seen ++ [(k, v)]

/-- `seen.delete(k)`. -/
def mapDelete (seen : SeenMap) (k : String) : SeenMap :=
  seen.filter (fun e => ¬ e.1 = k)

/-- The `for (const [existUrl, existItem] of seen)` search with its
`break`: the first entry whose stored title is similar. -/
def findSimilar (title : String) (seen : SeenMap) : Option (String × SynItem) :=
  seen.find? (fun e => titlesAreSimilar title e.2.title)

/-- `result[result.indexOf(old)] = nw` (no change when `old` is absent). -/
def replaceFirst : List SynItem → SynItem → SynItem → List SynItem
  | [], _, _ => []
  | x :: xs, old, nw =>
    if x = old then nw :: xs else x :: replaceFirst xs old nw

/-- One iteration of the `deduplicateItems` loop. -/
def dedupStep (st : SeenMap × List SynItem) (item : SynItem) :
    SeenMap × List SynItem :=
  let seen := st.1
  let result := st.2
  let normUrl := normalizeUrl item.url
  match mapLookup seen normUrl with
  | some existing =>
    if item.category = hotCategory ∧ ¬ existing.category = hotCategory then
      (mapSet seen normUrl item, replaceFirst result existing item)
    else (seen, result)
  | none =>
    match findSimilar item.title seen with
    | some (existUrl, existItem) =>
      if item.category = hotCategory ∧ ¬ existItem.category = hotCategory then
        (mapSet (mapDelete seen existUrl) normUrl item,
         replaceFirst result existItem item)
      else (seen, result)
    | none => (seen ++ [(normUrl, item)], result ++ [item])

/-- Source `deduplicateItems`. -/
def deduplicateItems (items : List SynItem) : List SynItem :=
  (items.foldl dedupStep ([], [])).2

/-- Loop invariant of `deduplicateItems` (used by the C8 analysis): keys
are duplicate-free, each key is the normalized URL of its value, the
result list holds exactly the map's values, and the result is
duplicate-free. -/
def SeenInv (seen : SeenMap) (result : List SynItem) : Prop :=
  (seen.map Prod.fst).Nodup ∧
  (∀ e ∈ seen, e.1 = normalizeUrl e.2.url) ∧
  (∀ x : SynItem, x ∈ result ↔ ∃ k, (k, x) ∈ seen) ∧
  result.Nodup

/-- Decode every valid item (element-wise `jsonToSynItem`). -/
def decodeAll : List Json → Option (List SynItem)
  | [] => some []
  | j :: rest =>
    match jsonToSynItem j, decodeAll rest with
    | some x, some xs => some (x :: xs)
    | _, _ => none

/-- The structured items `generateDigest` ends up with for a given
(trimmed) model reply: the parse cascade, the decode into string-field
records, then `deduplicateItems`.  `none` is the raw-text fallback. -/
def structuredOutput (rawContent : String) : Option (List SynItem) :=
  match parseStructuredItems rawContent with
  | none => none
  | some valid =>
    match decodeAll valid with
    | none => none
    | some decoded => some (deduplicateItems decoded)

/-! ## C2 infrastructure: URL normalization over well-formed spellings -/

/-- Value of `Char.ofNat` on a valid code point. -/
theorem charOfNat_toNat (n : Nat) (h : Nat.isValidChar n) :
    (Char.ofNat n).toNat = n := by
  unfold Char.ofNat
  rw [dif_pos h]
  rfl

/-- Lower-casing never produces a slash from a non-slash. -/
theorem lowChar_ne_slash (c : Char) (h : ¬ c = '/') : ¬ lowChar c = '/' := by
  unfold lowChar Char.toLower
  dsimp only
  split
  · rename_i hr
    intro hc
    have hv : (Char.ofNat (c.toNat + 32)).toNat = c.toNat + 32 :=
      charOfNat_toNat _ (Or.inl (by omega))
    rw [hc] at hv
    have h47 : ('/' : Char).toNat = 47 := rfl
    omega
  · exact h

-- takeWhile/dropWhile over an append whose first block satisfies p and the
-- second block's head refutes it
/-- Splitting `takeWhile`/`dropWhile` over an append whose first block
satisfies the predicate and whose second block starts with a refuting
character. -/
theorem takeWhile_append_block (p : Char → Bool) :
    ∀ (xs ys : List Char), (∀ x ∈ xs, p x = true) →
      (∀ y, ys.head? = some y → p y = false) →
      (xs ++ ys).takeWhile p = xs ∧ (xs ++ ys).dropWhile p = ys := by
  intro xs
  induction xs with
  | nil =>
    intro ys hx hy
    cases ys with
    | nil => exact ⟨rfl, rfl⟩
    | cons y t =>
      have := hy y rfl
      constructor
      · simp [List.takeWhile_cons, this]
      · simp [List.dropWhile_cons, this]
  | cons x xs ih =>
    intro ys hx hy
    have hpx : p x = true := hx x (List.mem_cons_self _ _)
    have hih := ih ys (fun z hz => hx z (List.mem_cons_of_mem _ hz)) hy
    constructor
    · simp [List.takeWhile_cons, hpx, hih.1]
    · simp [List.dropWhile_cons, hpx, hih.2]

/-- `dropWhile` is the identity when the head refutes the predicate. -/
theorem dropWhile_head_false (p : Char → Bool) (l : List Char)
    (h : ∀ c, l.head? = some c → p c = false) : l.dropWhile p = l := by
  cases l with
  | nil => rfl
  | cons c t => simp [List.dropWhile_cons, h c rfl]

/-- Trailing-slash stripping absorbs an appended run of slashes. -/
theorem stripTrail_append_replicate (xs : List Char) (k : Nat) :
    stripTrailingSlashesL (xs ++ List.replicate k '/') = stripTrailingSlashesL xs := by
  unfold stripTrailingSlashesL
  rw [List.reverse_append, List.reverse_replicate]
  congr 1
  induction k with
  | zero => simp
  | succ k ih => simp [List.replicate_succ, List.dropWhile_cons, ih]

/-- Trailing-slash stripping passes over a slash-free prefix. -/
theorem stripTrail_append_noslash (xs ys : List Char)
    (hx : ∀ c ∈ xs, ¬ c = '/') :
    stripTrailingSlashesL (xs ++ ys) = xs ++ stripTrailingSlashesL ys := by
  unfold stripTrailingSlashesL
  rw [List.reverse_append, List.dropWhile_append]
  by_cases he : (ys.reverse.dropWhile (fun c => c = '/')).isEmpty = true
  · rw [if_pos he]
    have hempty : ys.reverse.dropWhile (fun c => c = '/') = [] :=
      List.isEmpty_iff.mp he
    rw [hempty, List.reverse_nil, List.append_nil]
    rw [dropWhile_head_false]
    · exact (List.reverse_reverse xs).symm ▸ rfl
    · intro c hc
      have hmem : c ∈ xs.reverse := List.mem_of_mem_head? hc
      have := hx c (List.mem_reverse.mp hmem)
      simpa using this
  · rw [if_neg he]
    rw [List.reverse_append, List.reverse_reverse]



/-- `takeWhile` is the identity on an all-satisfying list. -/
theorem takeWhile_all (p : Char → Bool) (l : List Char)
    (h : ∀ x ∈ l, p x = true) : l.takeWhile p = l := by
  have hb := takeWhile_append_block p l [] h (by intro y hy; cases hy)
  simpa using hb.1

/-- Userinfo removal is the identity without an at-sign. -/
theorem afterLastAt_noat (l : List Char) (h : ∀ c ∈ l, ¬ c = '@') :
    afterLastAt l = l := by
  unfold afterLastAt
  rw [takeWhile_all]
  · exact List.reverse_reverse l
  · intro x hx
    have := h x (List.mem_reverse.mp hx)
    simpa using this

/-- Evaluation of the URL parser on a well-formed http(s) spelling. -/
theorem parseUrlL_core (sd : List Char) (host path : String) (k : Nat)
    (hsd : sd = ['h','t','t','p'] ∨ sd = ['h','t','t','p','s'])
    (hh : HostOk host) (hp : PathOk path) :
    parseUrlL (sd ++ ':' :: '/' :: '/' ::
        (host.data ++ (path.data ++ List.replicate k '/'))) =
      some (lowerL host.data,
        if path.data ++ List.replicate k '/' = [] then ['/']
        else path.data ++ List.replicate k '/') := by
  have hschemeAll : ∀ x ∈ sd, isSchemeChar x = true := by
    rcases hsd with h | h <;> subst h <;> decide
  rw [parseUrlL]
  have hblock := takeWhile_append_block isSchemeChar sd
    (':' :: '/' :: '/' :: (host.data ++ (path.data ++ List.replicate k '/')))
    hschemeAll (by intro y hy; cases hy; decide)
  rw [hblock.1, hblock.2]
  have hhostAll : ∀ x ∈ host.data,
      (fun c => ¬ isAuthorityEnd c : Char → Bool) x = true := by
    intro x hx
    have hc := hh.2 x hx
    simp only [isAuthorityEnd, decide_eq_true_eq]
    rintro (rfl | rfl | rfl) <;> revert hc <;> decide
  have hpathHead : ∀ y, (path.data ++ List.replicate k '/').head? = some y →
      (fun c => ¬ isAuthorityEnd c : Char → Bool) y = false := by
    intro y hy
    have hy' : y = '/' := by
      rcases hp.1 with hempty | ⟨t, ht⟩
      · rw [hempty, List.nil_append] at hy
        cases k with
        | zero => simp at hy
        | succ k =>
          rw [List.replicate_succ] at hy
          simpa using hy.symm
      · rw [ht] at hy
        simpa using hy.symm
    subst hy'
    decide
  have hauth := takeWhile_append_block (fun c => ¬ isAuthorityEnd c) host.data
    (path.data ++ List.replicate k '/') hhostAll hpathHead
  have hnoat : afterLastAt host.data = host.data := by
    apply afterLastAt_noat
    intro c hc
    have h2 := hh.2 c hc
    rintro rfl
    revert h2; decide
  have hnocolon : host.data.takeWhile (fun c => c ≠ ':') = host.data := by
    apply takeWhile_all
    intro x hx
    have h2 := hh.2 x hx
    simp only [decide_eq_true_eq]
    rintro rfl
    revert h2; decide
  have hpathAll : (path.data ++ List.replicate k '/').takeWhile
      (fun c => c ≠ '?' ∧ c ≠ '#') = path.data ++ List.replicate k '/' := by
    apply takeWhile_all
    intro x hx
    simp only [decide_eq_true_eq]
    rcases List.mem_append.mp hx with hx1 | hx2
    · have h2 := hp.2 x hx1
      constructor
      · rintro rfl; revert h2; decide
      · rintro rfl; revert h2; decide
    · have : x = '/' := List.eq_of_mem_replicate hx2
      subst this
      decide
  have htake3 : (':' :: '/' :: '/' ::
      (host.data ++ (path.data ++ List.replicate k '/'))).take 3 =
      [':', '/', '/'] := rfl
  have hdrop3 : (':' :: '/' :: '/' ::
      (host.data ++ (path.data ++ List.replicate k '/'))).drop 3 =
      host.data ++ (path.data ++ List.replicate k '/') := rfl
  rcases hsd with h | h <;> subst h <;>
    · dsimp only
      rw [if_neg (by decide), if_neg (by decide), if_pos htake3, hdrop3]
      rw [hauth.1, hauth.2, hnoat, hnocolon, hpathAll]
      rw [if_neg hh.1]

/-- Lower-casing preserves being a slash exactly. -/
theorem lowChar_eq_slash_iff (c : Char) : lowChar c = '/' ↔ c = '/' := by
  constructor
  · intro h
    by_contra hne
    exact lowChar_ne_slash c hne h
  · rintro rfl
    decide

/-- Trailing-slash stripping is the identity on slash-free lists. -/
theorem stripTrail_noslash (xs : List Char) (h : ∀ c ∈ xs, ¬ c = '/') :
    stripTrailingSlashesL xs = xs := by
  have h0 : stripTrailingSlashesL ([] : List Char) = [] := rfl
  have h2 := stripTrail_append_noslash xs [] h
  simp only [h0, List.append_nil] at h2
  exact h2

/-- Trailing-slash stripping commutes with lower-casing. -/
theorem stripTrail_lowerL (p : List Char) :
    stripTrailingSlashesL (lowerL p) = lowerL (stripTrailingSlashesL p) := by
  have hfun : ((fun c => decide (c = '/')) ∘ lowChar) =
      (fun c => decide (c = '/')) := by
    funext c
    simp only [Function.comp_apply]
    exact decide_eq_decide.mpr (lowChar_eq_slash_iff c)
  unfold stripTrailingSlashesL lowerL
  rw [← List.map_reverse, List.dropWhile_map, hfun, ← List.map_reverse]

/-- Character-list shape of a constructed URL spelling. -/
theorem parse_data_shape (scheme host path : String) (k : Nat)
    (hs : scheme = "http" ∨ scheme = "https") :
    (mkUrlSpelling scheme host path k).data =
      scheme.data ++ ':' :: '/' :: '/' ::
        (host.data ++ (path.data ++ List.replicate k '/')) := by
  rcases hs with h | h <;> subst h <;>
    simp [mkUrlSpelling, String.data_append]

/-- Closed form of `normalizeUrlForHash` on a well-formed http(s)
spelling: the lower-cased host followed by the lower-cased path with
trailing slashes removed. -/
theorem normalizeUrlForHash_mk (scheme host path : String) (k : Nat)
    (hs : scheme = "http" ∨ scheme = "https")
    (hh : HostOk host) (hp : PathOk path) :
    normalizeUrlForHash (mkUrlSpelling scheme host path k) =
      String.mk (lowerL (lowerL host.data ++ stripTrailingSlashesL path.data)) := by
  have hsd : scheme.data = ['h','t','t','p'] ∨ scheme.data = ['h','t','t','p','s'] := by
    rcases hs with h | h <;> subst h
    · exact Or.inl rfl
    · exact Or.inr rfl
  have hparse := parseUrlL_core scheme.data host path k hsd hh hp
  unfold normalizeUrlForHash
  rw [parse_data_shape scheme host path k hs, hparse]
  have hlowslash : ∀ c ∈ lowerL host.data, ¬ c = '/' := by
    intro c hc
    rcases List.mem_map.mp hc with ⟨c0, hc0, rfl⟩
    apply lowChar_ne_slash
    have h2 := hh.2 c0 hc0
    rintro rfl
    revert h2; decide
  by_cases hempty : path.data ++ List.replicate k '/' = []
  · rw [if_pos hempty]
    have hpd : path.data = [] := (List.append_eq_nil.mp hempty).1
    rw [hpd]
    simp only [Option.elim]
    have h1 : lowerL host.data ++ ['/'] =
        lowerL host.data ++ List.replicate 1 '/' := by
      simp [List.replicate_succ]
    rw [h1, stripTrail_append_replicate, stripTrail_noslash _ hlowslash]
    have h2 : stripTrailingSlashesL ([] : List Char) = [] := rfl
    rw [h2, List.append_nil]
  · rw [if_neg hempty]
    simp only [Option.elim]
    rw [show lowerL host.data ++ (path.data ++ List.replicate k '/') =
          (lowerL host.data ++ path.data) ++ List.replicate k '/' from
        (List.append_assoc _ _ _).symm]
    rw [stripTrail_append_replicate, stripTrail_append_noslash _ _ hlowslash]

/-- C2 (amended).  For URL spellings that differ only in the scheme
(`http` vs `https`), in trailing slashes, or in letter case, the
normalized form produced by `normalizeUrlForHash` and the url hash
produced by `hashStr` over it are identical.  (A `www.` prefix is *not*
abstracted away by this function: see the counterexample.) -/
theorem claim_c2_amended (sha : String → String)
    (s1 s2 host1 host2 path1 path2 : String) (k1 k2 : Nat)
    (hs1 : s1 = "http" ∨ s1 = "https") (hs2 : s2 = "http" ∨ s2 = "https")
    (hh1 : HostOk host1) (hh2 : HostOk host2)
    (hp1 : PathOk path1) (hp2 : PathOk path2)
    (hhost : lowerStr host1 = lowerStr host2)
    (hpath : lowerStr path1 = lowerStr path2) :
    normalizeUrlForHash (mkUrlSpelling s1 host1 path1 k1) =
      normalizeUrlForHash (mkUrlSpelling s2 host2 path2 k2) ∧
    hashStr sha (normalizeUrlForHash (mkUrlSpelling s1 host1 path1 k1)) =
      hashStr sha (normalizeUrlForHash (mkUrlSpelling s2 host2 path2 k2)) := by
  have hh' : lowerL host1.data = lowerL host2.data := by
    have := congrArg String.data hhost
    simpa [lowerStr] using this
  have hp' : lowerL path1.data = lowerL path2.data := by
    have := congrArg String.data hpath
    simpa [lowerStr] using this
  have hmain : normalizeUrlForHash (mkUrlSpelling s1 host1 path1 k1) =
      normalizeUrlForHash (mkUrlSpelling s2 host2 path2 k2) := by
    rw [normalizeUrlForHash_mk s1 host1 path1 k1 hs1 hh1 hp1,
        normalizeUrlForHash_mk s2 host2 path2 k2 hs2 hh2 hp2]
    congr 1
    have hstrip : lowerL (stripTrailingSlashesL path1.data) =
        lowerL (stripTrailingSlashesL path2.data) := by
      rw [← stripTrail_lowerL, ← stripTrail_lowerL, hp']
    calc lowerL (lowerL host1.data ++ stripTrailingSlashesL path1.data)
        = lowerL (lowerL host1.data) ++ lowerL (stripTrailingSlashesL path1.data) := by
          simp [lowerL]
      _ = lowerL (lowerL host2.data) ++ lowerL (stripTrailingSlashesL path2.data) := by
          rw [hh', hstrip]
      _ = lowerL (lowerL host2.data ++ stripTrailingSlashesL path2.data) := by
          simp [lowerL]
  exact ⟨hmain, congrArg (hashStr sha) hmain⟩

/-- C2 counterexample.  Two spellings that differ only in a `www.`
prefix normalize differently, refuting the claim as stated:
`normalizeUrlForHash` keeps the `www.` hostname label (only the
batch-local normalizer of the main loop strips it). -/
theorem claim_c2_counterexample :
    normalizeUrlForHash "http://www.example.com/a" ≠
      normalizeUrlForHash "http://example.com/a" := by decide

set_option maxHeartbeats 1000000 in
/-- C2 witness: scheme, case, and trailing-slash differences on concrete
spellings normalize identically. -/
theorem claim_c2_witness :
    normalizeUrlForHash (mkUrlSpelling "http" "Example.COM" "/A" 0) =
      normalizeUrlForHash (mkUrlSpelling "https" "example.com" "/a" 2) :=
  (claim_c2_amended id "http" "https" "Example.COM" "example.com" "/A" "/a" 0 2
    (Or.inl rfl) (Or.inr rfl)
    (by constructor; · decide
        · decide)
    (by constructor; · decide
        · decide)
    (by constructor; · right; exact ⟨['A'], rfl⟩
        · decide)
    (by constructor; · right; exact ⟨['a'], rfl⟩
        · decide)
    (by decide) (by decide)).1

/-! ## Shared lemmas about the push-history store -/

/-- Rows inside the window contribute their url hash to the loaded
snapshot. -/
theorem mem_urlHashes_of_row (db : List PushRow) (cutoff : Nat) (r : PushRow)
    (hr : r ∈ db) (hc : cutoff ≤ r.pushedAt) :
    r.urlHash ∈ (loadPushedHistory db cutoff).urlHashes := by
  unfold loadPushedHistory
  exact List.mem_map_of_mem _ (List.mem_filter.mpr ⟨hr, by simpa using hc⟩)

/-- A url-hash hit makes `isItemPushedBefore` return `true`. -/
theorem pushedBefore_of_urlHash (sha : String → String)
    (history : HistorySnapshot) (item : Item)
    (h : hashStr sha (normalizeUrlForHash item.url) ∈ history.urlHashes) :
    isItemPushedBefore sha history item = true := by
  unfold isItemPushedBefore
  rw [if_pos (List.elem_eq_true_of_mem h)]

/-- After recording a single item, some row carries the item's url hash. -/
theorem record_single_mem (sha : String → String) (db : List PushRow)
    (i : Item) (digestType : String) (t : Nat) :
    ∃ r ∈ recordPushedItems sha db [i] digestType t,
      r.urlHash = hashStr sha (normalizeUrlForHash i.url) := by
  unfold recordPushedItems
  simp only [List.foldl_cons, List.foldl_nil]
  by_cases h : db.any (fun q =>
      q.urlHash = (rowOfItem sha i digestType t).urlHash) = true
  · rw [if_pos h]
    rcases List.any_eq_true.mp h with ⟨r, hr, hq⟩
    exact ⟨r, hr, of_decide_eq_true hq⟩
  · rw [if_neg h]
    exact ⟨rowOfItem sha i digestType t,
      List.mem_append_right _ (List.mem_singleton_self _), rfl⟩

/-- When no row with the hash pre-exists, recording inserts a fresh row
stamped with the insertion time. -/
theorem record_single_fresh (sha : String → String) (db : List PushRow)
    (i : Item) (digestType : String) (t : Nat)
    (hfresh : ∀ r ∈ db, r.urlHash ≠ hashStr sha (normalizeUrlForHash i.url)) :
    ∃ r ∈ recordPushedItems sha db [i] digestType t,
      r.urlHash = hashStr sha (normalizeUrlForHash i.url) ∧ r.pushedAt = t := by
  unfold recordPushedItems
  simp only [List.foldl_cons, List.foldl_nil]
  have h : db.any (fun q =>
      q.urlHash = (rowOfItem sha i digestType t).urlHash) = false := by
    rw [List.any_eq_false]
    intro r hr
    simpa [rowOfItem] using hfresh r hr
  rw [if_neg (by simp [h])]
  exact ⟨rowOfItem sha i digestType t,
    List.mem_append_right _ (List.mem_singleton_self _), rfl, rfl⟩

/-! ## C1: suppression monotonicity -/

/-- C1.  Suppression monotonicity: record an item with a non-empty URL via
`recordPushedItems`; then some row carries that URL's hash (a fresh row
stamped at the insertion time when the hash was not present yet), and
loading the history with any window covering such a row makes
`isItemPushedBefore` report any item with the same URL as suppressed. -/
theorem claim_c1_suppression_monotonic (sha : String → String)
    (db : List PushRow) (i j : Item) (digestType : String) (t cutoff : Nat)
    (hurl : i.url ≠ "") (hsame : j.url = i.url) :
    (∃ r ∈ recordPushedItems sha db [i] digestType t,
        r.urlHash = hashStr sha (normalizeUrlForHash i.url)) ∧
    ((∀ r ∈ db, r.urlHash ≠ hashStr sha (normalizeUrlForHash i.url)) →
      ∃ r ∈ recordPushedItems sha db [i] digestType t,
        r.urlHash = hashStr sha (normalizeUrlForHash i.url) ∧ r.pushedAt = t) ∧
    (∀ r ∈ recordPushedItems sha db [i] digestType t,
        r.urlHash = hashStr sha (normalizeUrlForHash i.url) →
        cutoff ≤ r.pushedAt →
        isItemPushedBefore sha
          (loadPushedHistory (recordPushedItems sha db [i] digestType t) cutoff)
          j = true) := by
  refine ⟨record_single_mem sha db i digestType t,
          fun hfresh => record_single_fresh sha db i digestType t hfresh,
          fun r hr hhash hc => ?_⟩
  apply pushedBefore_of_urlHash
  rw [hsame, ← hhash]
  exact mem_urlHashes_of_row _ cutoff r hr hc

set_option maxHeartbeats 2000000 in
/-- C1 witness: identity digest, empty store, one item recorded at time 5,
window cutoff 3; an equal-URL item is then suppressed. -/
theorem claim_c1_witness :
    isItemPushedBefore id
      (loadPushedHistory
        (recordPushedItems id []
          [{ title := "t1", url := "http://a.example/x" }] "4h" 5) 3)
      { title := "t2", url := "http://a.example/x" } = true :=
  (claim_c1_suppression_monotonic id []
      { title := "t1", url := "http://a.example/x" }
      { title := "t2", url := "http://a.example/x" }
      "4h" 5 3 (by decide) rfl).2.2
    (rowOfItem id { title := "t1", url := "http://a.example/x" } "4h" 5)
    (by decide) (by decide) (by decide)

/-! ## C9: history read failure degrades to empty -/

/-- C9.  The history load is total and never raises: a failing read yields
the empty snapshot, a successful read yields the windowed snapshot of url
hashes, title hashes, and non-empty titles, and a missing (uninitialized)
store handle also yields the empty snapshot in the orchestrator. -/
theorem claim_c9_history_read_degrades :
    (∀ (e : Unit) (cutoff : Nat),
        loadPushedHistoryE (Except.error e) cutoff = emptyHistory) ∧
    (∀ (db : List PushRow) (cutoff : Nat),
        loadPushedHistoryE (Except.ok db) cutoff =
          { urlHashes :=
              (db.filter (fun r => cutoff ≤ r.pushedAt)).map (fun r => r.urlHash)
            titleHashes :=
              (db.filter (fun r => cutoff ≤ r.pushedAt)).map (fun r => r.titleHash)
            titles :=
              ((db.filter (fun r => cutoff ≤ r.pushedAt)).map
                (fun r => r.title)).filter (fun t => t ≠ "") }) ∧
    (∀ cutoff : Nat, loadHistoryOrEmpty none cutoff = emptyHistory) :=
  ⟨fun _ _ => rfl, fun _ _ => rfl, fun _ => rfl⟩

/-! ## C10: URL-less items share one url hash -/

/-- C10.  `normalizeUrlForHash` maps an absent or empty URL to the empty
string, so every URL-less item gets the hash of `""`; once any URL-less
item is recorded, a row with that hash exists, and any snapshot whose
window covers such a row suppresses every URL-less item regardless of its
title. -/
theorem claim_c10_urlless_share_hash (sha : String → String)
    (db : List PushRow) (i j : Item) (digestType : String) (t cutoff : Nat)
    (hi : i.url = "") (hj : j.url = "") :
    normalizeUrlForHash i.url = "" ∧
    hashStr sha (normalizeUrlForHash i.url) =
      hashStr sha (normalizeUrlForHash j.url) ∧
    (∃ r ∈ recordPushedItems sha db [i] digestType t,
        r.urlHash = hashStr sha (normalizeUrlForHash "")) ∧
    (∀ db2 : List PushRow, ∀ r ∈ db2,
        r.urlHash = hashStr sha (normalizeUrlForHash "") →
        cutoff ≤ r.pushedAt →
        isItemPushedBefore sha (loadPushedHistory db2 cutoff) j = true) := by
  refine ⟨?_, ?_, ?_, ?_⟩
  · rw [hi]
    rfl
  · rw [hi, hj]
  · have h := record_single_mem sha db i digestType t
    rwa [hi] at h
  · intro db2 r hr hhash hc
    apply pushedBefore_of_urlHash
    rw [hj, ← hhash]
    exact mem_urlHashes_of_row db2 cutoff r hr hc

set_option maxHeartbeats 2000000 in
/-- C10 witness: two distinct URL-less items; after recording the first at
time 7, a window with cutoff 2 suppresses the second. -/
theorem claim_c10_witness :
    normalizeUrlForHash "" = "" ∧
    isItemPushedBefore id
      (loadPushedHistory
        (recordPushedItems id [] [{ title := "one story" }] "daily" 7) 2)
      { title := "a completely different story" } = true := by
  have h := claim_c10_urlless_share_hash id [] { title := "one story" }
    { title := "a completely different story" } "daily" 7 2 rfl rfl
  refine ⟨h.1, ?_⟩
  exact h.2.2.2 (recordPushedItems id [] [{ title := "one story" }] "daily" 7)
    (rowOfItem id { title := "one story" } "daily" 7)
    (by decide) (by decide) (by decide)

/-! ## C6: staleness filter -/

/-- One pre-dedup iteration either keeps the output list or appends the
current item, and it appends only when the staleness condition is false. -/
theorem preDedupStep_out (sha : String → String) (hasDb : Bool)
    (history : HistorySnapshot) (parseDate : String → Option Int)
    (now maxAgeMs : Int) (st : List String × List Item) (item : Item) :
    (preDedupStep sha hasDb history parseDate now maxAgeMs st item).2 = st.2 ∨
    ((preDedupStep sha hasDb history parseDate now maxAgeMs st item).2 =
        st.2 ++ [item] ∧
      staleDrop parseDate now maxAgeMs item = false) := by
  unfold preDedupStep
  by_cases h1 : staleDrop parseDate now maxAgeMs item = true
  · rw [if_pos h1]
    exact Or.inl rfl
  · rw [if_neg h1]
    dsimp only
    split_ifs <;>
      first
        | exact Or.inl rfl
        | exact Or.inr ⟨rfl, by simpa using h1⟩

/-- Items already collected are preserved by the remaining pre-dedup
iterations (the loop never removes from the output). -/
theorem preDedup_out_mono (sha : String → String) (hasDb : Bool)
    (history : HistorySnapshot) (parseDate : String → Option Int)
    (now maxAgeMs : Int) :
    ∀ (l : List Item) (st : List String × List Item) (x : Item),
      x ∈ st.2 →
      x ∈ (l.foldl (preDedupStep sha hasDb history parseDate now maxAgeMs) st).2 := by
  intro l
  induction l with
  | nil => intro st x hx; simpa using hx
  | cons a l ih =>
    intro st x hx
    rw [List.foldl_cons]
    apply ih
    rcases preDedupStep_out sha hasDb history parseDate now maxAgeMs st a with
      h | ⟨h, -⟩
    · rw [h]; exact hx
    · rw [h]; exact List.mem_append_left _ hx

/-- Everything the pre-dedup loop outputs passed the staleness check. -/
theorem preDedup_out_not_stale (sha : String → String) (hasDb : Bool)
    (history : HistorySnapshot) (parseDate : String → Option Int)
    (now maxAgeMs : Int) :
    ∀ (l : List Item) (st : List String × List Item),
      (∀ x ∈ st.2, staleDrop parseDate now maxAgeMs x = false) →
      ∀ x ∈ (l.foldl (preDedupStep sha hasDb history parseDate now maxAgeMs) st).2,
        staleDrop parseDate now maxAgeMs x = false := by
  intro l
  induction l with
  | nil => intro st hst x hx; exact hst x (by simpa using hx)
  | cons a l ih =>
    intro st hst x hx
    rw [List.foldl_cons] at hx
    refine ih _ ?_ x hx
    intro y hy
    rcases preDedupStep_out sha hasDb history parseDate now maxAgeMs st a with
      h | ⟨h, hstale⟩
    · rw [h] at hy; exact hst y hy
    · rw [h] at hy
      rcases List.mem_append.mp hy with h1 | h2
      · exact hst y h1
      · rw [List.mem_singleton.mp h2]
        exact hstale

/-- C6.  Staleness filter: (1) every item the pre-dedup pass outputs has a
false staleness condition, (2) an item whose `pubDate` parses to a time
older than the maximum age satisfies the staleness condition and is
therefore dropped, (3) an item with absent or unparseable date never
satisfies it, and (4) such an item is kept by the pass when the other two
stages (batch URL dedup, history suppression) do not remove it, e.g. at the
head of the batch with no history hit. -/
theorem claim_c6_staleness_filter (sha : String → String) (hasDb : Bool)
    (history : HistorySnapshot) (parseDate : String → Option Int)
    (now maxAgeMs : Int) :
    (∀ (items : List Item) (x : Item),
        x ∈ preDedup sha hasDb history parseDate now maxAgeMs items →
        staleDrop parseDate now maxAgeMs x = false) ∧
    (∀ (item : Item) (pubTime : Int),
        item.pubDate ≠ "" → parseDate item.pubDate = some pubTime →
        now - pubTime > maxAgeMs →
        staleDrop parseDate now maxAgeMs item = true) ∧
    (∀ item : Item,
        item.pubDate = "" ∨ parseDate item.pubDate = none →
        staleDrop parseDate now maxAgeMs item = false) ∧
    (∀ (item : Item) (rest : List Item),
        item.pubDate = "" ∨ parseDate item.pubDate = none →
        (hasDb = false ∨ isItemPushedBefore sha history item = false) →
        item ∈ preDedup sha hasDb history parseDate now maxAgeMs (item :: rest)) := by
  refine ⟨?_, ?_, ?_, ?_⟩
  · intro items x hx
    exact preDedup_out_not_stale sha hasDb history parseDate now maxAgeMs
      items ([], []) (by intro y hy; simp at hy) x hx
  · intro item pubTime hne hparse hold
    unfold staleDrop
    rw [if_pos hne, hparse]
    simpa using hold
  · intro item h
    unfold staleDrop
    rcases h with h | h
    · rw [if_neg (by simp [h])]
    · by_cases hne : item.pubDate ≠ ""
      · rw [if_pos hne, h]
      · rw [if_neg hne]
  · intro item rest hdate hnohist
    unfold preDedup
    rw [List.foldl_cons]
    apply preDedup_out_mono
    unfold preDedupStep
    dsimp only
    have hstale : staleDrop parseDate now maxAgeMs item = false := by
      rcases hdate with h | h
      · unfold staleDrop; rw [if_neg (by simp [h])]
      · unfold staleDrop
        by_cases hne : item.pubDate ≠ ""
        · rw [if_pos hne, h]
        · rw [if_neg hne]
    rw [if_neg (by simp [hstale])]
    have hbatch : ¬ ((if item.url ≠ "" then batchNormalizeUrl item.url else "") ≠ "" ∧
        List.contains [] (if item.url ≠ "" then batchNormalizeUrl item.url else "") = true) := by
      rintro ⟨-, hc⟩
      simp [List.contains] at hc
    rw [if_neg hbatch]
    have hhist : ¬ (hasDb = true ∧ isItemPushedBefore sha history item = true) := by
      rintro ⟨h1, h2⟩
      rcases hnohist with h | h
      · rw [h1] at h; exact Bool.noConfusion h
      · rw [h2] at h; exact Bool.noConfusion h
    rw [if_neg hhist]
    simp

set_option maxHeartbeats 1000000 in
/-- C6 witness: a concrete run with an unparseable-date item kept and a
stale item dropped. -/
theorem claim_c6_witness :
    staleDrop (fun _ => some 0) 1000000 100 { pubDate := "old" } = true ∧
    staleDrop (fun _ => some 0) 1000000 100 { pubDate := "" } = false ∧
    { title := "kept", pubDate := "" } ∈
      preDedup id false emptyHistory (fun _ => some 0) 1000000 100
        [{ title := "kept", pubDate := "" }, { pubDate := "old" }] := by
  have h := claim_c6_staleness_filter id false emptyHistory
    (fun _ => some 0) 1000000 100
  refine ⟨h.2.1 { pubDate := "old" } 0 (by decide) rfl (by decide), ?_, ?_⟩
  · exact h.2.2.1 { pubDate := "" } (Or.inl rfl)
  · exact h.2.2.2 { title := "kept", pubDate := "" } [{ pubDate := "old" }]
      (Or.inl rfl) (Or.inl rfl)

/-! ## C7: title-similarity symmetry -/

/-- Symmetry of the shared-name test. -/
theorem namesShareEither_comm (x y : List String) :
    namesShareEither x y = namesShareEither y x := by
  rw [Bool.eq_iff_iff]
  simp only [namesShareEither, List.any_eq_true, decide_eq_true_eq]
  constructor
  · rintro ⟨n, hn, m, hm, h⟩
    refine ⟨m, hm, n, hn, ?_⟩
    rcases h with h | h | h
    · exact Or.inl h.symm
    · exact Or.inr (Or.inr h)
    · exact Or.inr (Or.inl h)
  · rintro ⟨n, hn, m, hm, h⟩
    refine ⟨m, hm, n, hn, ?_⟩
    rcases h with h | h | h
    · exact Or.inl h.symm
    · exact Or.inr (Or.inr h)
    · exact Or.inr (Or.inl h)

/-- Symmetry of the shared-number test. -/
theorem numbersShare_comm (x y : List String) :
    numbersShare x y = numbersShare y x := by
  rw [Bool.eq_iff_iff]
  simp only [numbersShare, List.any_eq_true]
  constructor
  · rintro ⟨n, hn, hm⟩
    exact ⟨n, List.mem_of_elem_eq_true hm, List.elem_eq_true_of_mem hn⟩
  · rintro ⟨n, hn, hm⟩
    exact ⟨n, List.mem_of_elem_eq_true hm, List.elem_eq_true_of_mem hn⟩

/-- Symmetry of the significant shared-name test. -/
theorem namesShareLong_comm (x y : List String) :
    namesShareLong x y = namesShareLong y x := by
  rw [Bool.eq_iff_iff]
  simp only [namesShareLong, List.any_eq_true, Bool.and_eq_true, decide_eq_true_eq]
  constructor
  · rintro ⟨n, hn, h4, m, hm, hm4, h⟩
    refine ⟨m, hm, hm4, n, hn, h4, ?_⟩
    rcases h with h | h | h
    · exact Or.inl h.symm
    · exact Or.inr (Or.inr h)
    · exact Or.inr (Or.inl h)
  · rintro ⟨n, hn, h4, m, hm, hm4, h⟩
    refine ⟨m, hm, hm4, n, hn, h4, ?_⟩
    rcases h with h | h | h
    · exact Or.inl h.symm
    · exact Or.inr (Or.inr h)
    · exact Or.inr (Or.inl h)

/-- The bigram intersection count as a finite-set cardinality. -/
theorem inter_card_toFinset (A B : List String) (hA : A.Nodup) :
    (A.filter (fun g => B.contains g)).length = (A.toFinset ∩ B.toFinset).card := by
  have hn : (A.filter (fun g => B.contains g)).Nodup := hA.filter _
  rw [← List.toFinset_card_of_nodup hn]
  congr 1
  ext z
  simp only [List.mem_toFinset, List.mem_filter, Finset.mem_inter]
  constructor
  · rintro ⟨h1, h2⟩; exact ⟨h1, List.mem_of_elem_eq_true h2⟩
  · rintro ⟨h1, h2⟩; exact ⟨h1, List.elem_eq_true_of_mem h2⟩

/-- Symmetry of the bigram Jaccard branch. -/
theorem bigramSimilar_comm (x y : String) :
    bigramSimilar x y = bigramSimilar y x := by
  unfold bigramSimilar
  have hx : (bigramSet x).Nodup := List.nodup_dedup _
  have hy : (bigramSet y).Nodup := List.nodup_dedup _
  have hI : ((bigramSet x).filter (fun g => (bigramSet y).contains g)).length =
      ((bigramSet y).filter (fun g => (bigramSet x).contains g)).length := by
    rw [inter_card_toFinset _ _ hx, inter_card_toFinset _ _ hy, Finset.inter_comm]
  dsimp only
  rw [hI, Nat.add_comm ((bigramSet x).length) ((bigramSet y).length)]
  exact if_congr or_comm rfl rfl

/-- C7.  Title-similarity symmetry: every branch of `titlesAreSimilar` is
a symmetric condition, so the function is symmetric in its two arguments. -/
theorem claim_c7_title_similarity_symmetric (a b : String) :
    titlesAreSimilar a b = titlesAreSimilar b a := by
  unfold titlesAreSimilar
  dsimp only
  rw [namesShareEither_comm, namesShareLong_comm, numbersShare_comm, bigramSimilar_comm]
  rw [show (decide (normalizeTitle a = normalizeTitle b)) =
        decide (normalizeTitle b = normalizeTitle a) from decide_eq_decide.mpr eq_comm]
  rw [show (decide (normalizeTitle a = "" ∨ normalizeTitle b = "")) =
        decide (normalizeTitle b = "" ∨ normalizeTitle a = "")  from decide_eq_decide.mpr or_comm]
  rw [Bool.eq_iff_iff]
  simp only [Bool.and_eq_true, Bool.or_eq_true, Bool.not_eq_true', decide_eq_true_eq,
    decide_eq_false_iff_not]
  constructor <;> intro h <;> tauto

/-! ## C8: post-synthesis dedup machinery -/

/-- A successful lookup is a map entry. -/
theorem mapLookup_some_mem (seen : SeenMap) (k : String) (v : SynItem)
    (h : mapLookup seen k = some v) : (k, v) ∈ seen := by
  unfold mapLookup at h
  rcases Option.map_eq_some'.mp h with ⟨e, he, hev⟩
  have hmem := List.mem_of_find?_eq_some he
  have hpred := List.find?_some he
  have hk : e.1 = k := by simpa using hpred
  have : e = (k, v) := by
    cases e
    simp only at hk hev
    simp [hk, hev]
  rwa [this] at hmem

/-- A failed lookup means the key is absent. -/
theorem mapLookup_none_not_mem (seen : SeenMap) (k : String)
    (h : mapLookup seen k = none) : ∀ v, (k, v) ∉ seen := by
  intro v hv
  unfold mapLookup at h
  rcases Option.map_eq_none'.mp h with hfind
  have := List.find?_eq_none.mp hfind (k, v) hv
  simp at this

/-- With duplicate-free keys, a key determines its value. -/
theorem keys_unique (seen : SeenMap) (hkeys : (seen.map Prod.fst).Nodup)
    (k : String) (v1 v2 : SynItem) (h1 : (k, v1) ∈ seen) (h2 : (k, v2) ∈ seen) :
    v1 = v2 := by
  induction seen with
  | nil => cases h1
  | cons e rest ih =>
    rw [List.map_cons, List.nodup_cons] at hkeys
    rcases List.mem_cons.mp h1 with he1 | h1' <;>
      rcases List.mem_cons.mp h2 with he2 | h2'
    · rw [← he1] at he2
      simp only [Prod.mk.injEq] at he2
      exact he2.2.symm
    · exfalso
      apply hkeys.1
      rw [← he1]
      exact (List.mem_map_of_mem Prod.fst h2' :)
    · exfalso
      apply hkeys.1
      rw [← he2]
      exact (List.mem_map_of_mem Prod.fst h1' :)
    · exact ih hkeys.2 h1' h2'

/-- Updating an existing key keeps the key list. -/
theorem mapSet_keys_present (seen : SeenMap) (k : String) (v : SynItem)
    (h : seen.any (fun e => e.1 = k) = true) :
    (mapSet seen k v).map Prod.fst = seen.map Prod.fst := by
  unfold mapSet
  rw [if_pos h, List.map_map]
  apply List.map_congr_left
  intro e he
  by_cases hk : e.1 = k
  · simp [hk]
  · simp [hk]

/-- Setting a fresh key appends it to the key list. -/
theorem mapSet_keys_absent (seen : SeenMap) (k : String) (v : SynItem)
    (h : ¬ seen.any (fun e => e.1 = k) = true) :
    (mapSet seen k v).map Prod.fst = seen.map Prod.fst ++ [k] := by
  unfold mapSet
  rw [if_neg h, List.map_append]
  rfl

/-- The `has` check matches key membership. -/
theorem any_key_iff (seen : SeenMap) (k : String) :
    seen.any (fun e => e.1 = k) = true ↔ ∃ v, (k, v) ∈ seen := by
  rw [List.any_eq_true]
  constructor
  · rintro ⟨e, he, hp⟩
    have : e.1 = k := by simpa using hp
    exact ⟨e.2, by rwa [← this, Prod.mk.eta]⟩
  · rintro ⟨v, hv⟩
    exact ⟨(k, v), hv, by simp⟩

/-- Entries after an in-place update. -/
theorem mapSet_mem_present (seen : SeenMap) (k : String) (v : SynItem)
    (h : seen.any (fun e => e.1 = k) = true) (e : String × SynItem) :
    e ∈ mapSet seen k v ↔ (e = (k, v) ∨ (e ∈ seen ∧ e.1 ≠ k)) := by
  unfold mapSet
  rw [if_pos h]
  rw [List.mem_map]
  constructor
  · rintro ⟨e0, he0, heq⟩
    by_cases hk : e0.1 = k
    · left
      rw [← heq]
      simp [hk]
    · right
      rw [← heq]
      simp only [hk, if_neg, if_false]
      exact ⟨he0, hk⟩
  · rintro (rfl | ⟨he, hk⟩)
    · rcases (any_key_iff seen k).mp h with ⟨v0, hv0⟩
      exact ⟨(k, v0), hv0, by simp⟩
    · exact ⟨e, he, by simp [hk]⟩

/-- Entries after an appending update. -/
theorem mapSet_mem_absent (seen : SeenMap) (k : String) (v : SynItem)
    (h : ¬ seen.any (fun e => e.1 = k) = true) (e : String × SynItem) :
    e ∈ mapSet seen k v ↔ (e ∈ seen ∨ e = (k, v)) := by
  unfold mapSet
  rw [if_neg h]
  simp

/-- Entries after a deletion. -/
theorem mapDelete_mem (seen : SeenMap) (k : String) (e : String × SynItem) :
    e ∈ mapDelete seen k ↔ (e ∈ seen ∧ e.1 ≠ k) := by
  unfold mapDelete
  rw [List.mem_filter]
  simp

/-- Deletion only removes keys. -/
theorem mapDelete_keys_sublist (seen : SeenMap) (k : String) :
    ((mapDelete seen k).map Prod.fst).Sublist (seen.map Prod.fst) := by
  unfold mapDelete
  exact List.Sublist.map Prod.fst (List.filter_sublist seen)

/-- A similarity hit is an entry whose stored title is similar. -/
theorem findSimilar_some_mem (title : String) (seen : SeenMap)
    (k : String) (v : SynItem) (h : findSimilar title seen = some (k, v)) :
    (k, v) ∈ seen ∧ titlesAreSimilar title v.title = true := by
  unfold findSimilar at h
  have hmem := List.mem_of_find?_eq_some h
  have hpred := List.find?_some h
  exact ⟨hmem, by simpa using hpred⟩

/-- Replacement introduces no foreign elements. -/
theorem replaceFirst_mem_weak (l : List SynItem) (old nw x : SynItem)
    (h : x ∈ replaceFirst l old nw) : x ∈ l ∨ x = nw := by
  induction l with
  | nil => cases h
  | cons y t ih =>
    unfold replaceFirst at h
    by_cases hy : y = old
    · rw [if_pos hy] at h
      rcases List.mem_cons.mp h with rfl | h'
      · exact Or.inr rfl
      · exact Or.inl (List.mem_cons_of_mem _ h')
    · rw [if_neg hy] at h
      rcases List.mem_cons.mp h with rfl | h'
      · exact Or.inl (List.mem_cons_self _ _)
      · rcases ih h' with h2 | h2
        · exact Or.inl (List.mem_cons_of_mem _ h2)
        · exact Or.inr h2

/-- Membership after replacing the unique occurrence in a
duplicate-free list. -/
theorem replaceFirst_mem (l : List SynItem) (old nw : SynItem)
    (hnodup : l.Nodup) (hold : old ∈ l) (x : SynItem) :
    x ∈ replaceFirst l old nw ↔ ((x ∈ l ∧ x ≠ old) ∨ x = nw) := by
  induction l with
  | nil => cases hold
  | cons y t ih =>
    rw [List.nodup_cons] at hnodup
    unfold replaceFirst
    by_cases hy : y = old
    · rw [if_pos hy]
      subst hy
      constructor
      · intro h
        rcases List.mem_cons.mp h with rfl | h'
        · exact Or.inr rfl
        · exact Or.inl ⟨List.mem_cons_of_mem _ h', fun hxy => hnodup.1 (hxy ▸ h')⟩
      · rintro (⟨hx, hne⟩ | rfl)
        · rcases List.mem_cons.mp hx with rfl | h'
          · exact absurd rfl hne
          · exact List.mem_cons_of_mem _ h'
        · exact List.mem_cons_self _ _
    · rw [if_neg hy]
      have hold' : old ∈ t := by
        rcases List.mem_cons.mp hold with h | h
        · exact absurd h.symm hy
        · exact h
      rw [List.mem_cons, ih hnodup.2 hold', List.mem_cons]
      constructor
      · rintro (rfl | (⟨hx, hne⟩ | rfl))
        · exact Or.inl ⟨Or.inl rfl, hy⟩
        · exact Or.inl ⟨Or.inr hx, hne⟩
        · exact Or.inr rfl
      · rintro (⟨hx | hx, hne⟩ | rfl)
        · exact Or.inl hx
        · exact Or.inr (Or.inl ⟨hx, hne⟩)
        · exact Or.inr (Or.inr rfl)

/-- Replacement by a fresh element preserves distinctness. -/
theorem replaceFirst_nodup (l : List SynItem) (old nw : SynItem)
    (hnodup : l.Nodup) (hnw : nw ∉ l) :
    (replaceFirst l old nw).Nodup := by
  induction l with
  | nil => exact List.nodup_nil
  | cons y t ih =>
    rw [List.nodup_cons] at hnodup
    unfold replaceFirst
    by_cases hy : y = old
    · rw [if_pos hy]
      rw [List.nodup_cons]
      exact ⟨fun h => hnw (List.mem_cons_of_mem _ h), hnodup.2⟩
    · rw [if_neg hy]
      rw [List.nodup_cons]
      constructor
      · intro h
        rcases replaceFirst_mem_weak t old nw y h with h2 | h2
        · exact hnodup.1 h2
        · exact hnw (h2 ▸ List.mem_cons_self _ _)
      · exact ih hnodup.2 (fun h => hnw (List.mem_cons_of_mem _ h))

/-- Key membership through the entry list. -/
theorem key_mem_iff (seen : SeenMap) (k : String) :
    k ∈ seen.map Prod.fst ↔ ∃ v, (k, v) ∈ seen := by
  rw [List.mem_map]
  constructor
  · rintro ⟨e, he, rfl⟩
    exact ⟨e.2, by rwa [Prod.mk.eta]⟩
  · rintro ⟨v, hv⟩
    exact ⟨(k, v), hv, rfl⟩

/-- Appending a fresh key keeps the key list duplicate-free. -/
theorem keys_append_nodup (keys : List String) (k : String)
    (hk : keys.Nodup) (hnk : k ∉ keys) : (keys ++ [k]).Nodup := by
  simp [List.nodup_append, hk, hnk]

/-- The `deduplicateItems` loop invariant: the seen map has
duplicate-free keys, each key is the normalized URL of its value, the
result holds exactly the map's values, and the result is duplicate-free.
Every loop iteration preserves it. -/
theorem dedupStep_inv (st : SeenMap × List SynItem) (item : SynItem)
    (hinv : SeenInv st.1 st.2) :
    SeenInv (dedupStep st item).1 (dedupStep st item).2 := by
  obtain ⟨seen, result⟩ := st
  obtain ⟨hkeys, hkeyurl, hiff, hnodup⟩ := hinv
  dsimp only at hkeys hkeyurl hiff hnodup
  unfold dedupStep
  dsimp only
  cases hlk : mapLookup seen (normalizeUrl item.url) with
  | some existing =>
    dsimp only
    have hmem := mapLookup_some_mem _ _ _ hlk
    have hexurl : normalizeUrl item.url = normalizeUrl existing.url :=
      hkeyurl _ hmem
    by_cases hcat : item.category = hotCategory ∧ ¬ existing.category = hotCategory
    · rw [if_pos hcat]
      have hne : item ≠ existing := fun h => hcat.2 (h ▸ hcat.1)
      have hpresent : seen.any (fun e => e.1 = normalizeUrl item.url) = true :=
        (any_key_iff _ _).mpr ⟨existing, hmem⟩
      have hitem_notin : item ∉ result := by
        intro hx
        rcases (hiff item).mp hx with ⟨k, hk⟩
        have hkurl : k = normalizeUrl item.url := hkeyurl (k, item) hk
        rw [hkurl] at hk
        exact hne (keys_unique seen hkeys _ _ _ hk hmem)
      have hex_in : existing ∈ result := (hiff existing).mpr ⟨_, hmem⟩
      refine ⟨?_, ?_, ?_, ?_⟩
      · rw [mapSet_keys_present _ _ _ hpresent]
        exact hkeys
      · intro e he
        rcases (mapSet_mem_present _ _ _ hpresent e).mp he with rfl | ⟨he2, -⟩
        · rfl
        · exact hkeyurl e he2
      · intro x
        rw [replaceFirst_mem result existing item hnodup hex_in x]
        constructor
        · rintro (⟨hx, hxne⟩ | rfl)
          · rcases (hiff x).mp hx with ⟨k, hk⟩
            refine ⟨k, (mapSet_mem_present _ _ _ hpresent _).mpr (Or.inr ⟨hk, ?_⟩)⟩
            intro hkne
            rw [show ((k, x) : String × SynItem).1 = k from rfl] at hkne
            rw [hkne] at hk
            exact hxne (keys_unique seen hkeys _ _ _ hk hmem)
          · exact ⟨_, (mapSet_mem_present _ _ _ hpresent _).mpr (Or.inl rfl)⟩
        · rintro ⟨k, hk⟩
          rcases (mapSet_mem_present _ _ _ hpresent _).mp hk with heq | ⟨hk2, hkne⟩
          · simp only [Prod.mk.injEq] at heq
            exact Or.inr heq.2
          · left
            refine ⟨(hiff x).mpr ⟨k, hk2⟩, ?_⟩
            rintro rfl
            apply hkne
            rw [hexurl]
            exact hkeyurl _ hk2
      · exact replaceFirst_nodup result existing item hnodup hitem_notin
    · rw [if_neg hcat]
      exact ⟨hkeys, hkeyurl, hiff, hnodup⟩
  | none =>
    dsimp only
    have hnotkey := mapLookup_none_not_mem _ _ hlk
    have hitem_notin : item ∉ result := by
      intro hx
      rcases (hiff item).mp hx with ⟨k, hk⟩
      have hkurl : k = normalizeUrl item.url := hkeyurl (k, item) hk
      rw [hkurl] at hk
      exact hnotkey item hk
    cases hfs : findSimilar item.title seen with
    | some pair =>
      obtain ⟨existUrl, existItem⟩ := pair
      dsimp only
      obtain ⟨hmem, -⟩ := findSimilar_some_mem _ _ _ _ hfs
      have hexk : existUrl = normalizeUrl existItem.url := hkeyurl _ hmem
      by_cases hcat : item.category = hotCategory ∧ ¬ existItem.category = hotCategory
      · rw [if_pos hcat]
        have hne : item ≠ existItem := fun h => hcat.2 (h ▸ hcat.1)
        have hex_in : existItem ∈ result := (hiff existItem).mpr ⟨_, hmem⟩
        have hdel_keys : ((mapDelete seen existUrl).map Prod.fst).Nodup :=
          (mapDelete_keys_sublist seen existUrl).nodup hkeys
        have habsent : ¬ (mapDelete seen existUrl).any
            (fun e => e.1 = normalizeUrl item.url) = true := by
          rw [any_key_iff]
          rintro ⟨v, hv⟩
          exact hnotkey v ((mapDelete_mem seen existUrl _).mp hv).1
        refine ⟨?_, ?_, ?_, ?_⟩
        · rw [mapSet_keys_absent _ _ _ habsent]
          apply keys_append_nodup _ _ hdel_keys
          intro hk
          rcases (key_mem_iff _ _).mp hk with ⟨v, hv⟩
          exact hnotkey v ((mapDelete_mem seen existUrl _).mp hv).1
        · intro e he
          rcases (mapSet_mem_absent _ _ _ habsent e).mp he with he2 | rfl
          · exact hkeyurl e ((mapDelete_mem seen existUrl e).mp he2).1
          · rfl
        · intro x
          rw [replaceFirst_mem result existItem item hnodup hex_in x]
          constructor
          · rintro (⟨hx, hxne⟩ | rfl)
            · rcases (hiff x).mp hx with ⟨k, hk⟩
              refine ⟨k, (mapSet_mem_absent _ _ _ habsent _).mpr
                (Or.inl ((mapDelete_mem seen existUrl _).mpr ⟨hk, ?_⟩))⟩
              rw [show ((k, x) : String × SynItem).1 = k from rfl]
              intro hkeq
              rw [hkeq] at hk
              exact hxne (keys_unique seen hkeys _ _ _ hk hmem)
            · exact ⟨_, (mapSet_mem_absent _ _ _ habsent _).mpr (Or.inr rfl)⟩
          · rintro ⟨k, hk⟩
            rcases (mapSet_mem_absent _ _ _ habsent _).mp hk with hk2 | heq
            · obtain ⟨hk3, hkne⟩ := (mapDelete_mem seen existUrl _).mp hk2
              left
              refine ⟨(hiff x).mpr ⟨k, hk3⟩, ?_⟩
              rintro rfl
              apply hkne
              exact (hkeyurl _ hk3).trans hexk.symm
            · simp only [Prod.mk.injEq] at heq
              exact Or.inr heq.2
        · exact replaceFirst_nodup result existItem item hnodup hitem_notin
      · rw [if_neg hcat]
        exact ⟨hkeys, hkeyurl, hiff, hnodup⟩
    | none =>
      dsimp only
      refine ⟨?_, ?_, ?_, ?_⟩
      · rw [List.map_append]
        apply keys_append_nodup _ _ hkeys
        intro hk
        rcases (key_mem_iff _ _).mp hk with ⟨v, hv⟩
        exact hnotkey v hv
      · intro e he
        rcases List.mem_append.mp he with he2 | he2
        · exact hkeyurl e he2
        · rw [List.mem_singleton.mp he2]
      · intro x
        rw [List.mem_append, List.mem_singleton]
        constructor
        · rintro (hx | rfl)
          · rcases (hiff x).mp hx with ⟨k, hk⟩
            exact ⟨k, List.mem_append_left _ hk⟩
          · exact ⟨_, List.mem_append_right _ (List.mem_singleton_self _)⟩
        · rintro ⟨k, hk⟩
          rcases List.mem_append.mp hk with hk2 | hk2
          · exact Or.inl ((hiff x).mpr ⟨k, hk2⟩)
          · have heq := List.mem_singleton.mp hk2
            simp only [Prod.mk.injEq] at heq
            exact Or.inr heq.2
      · apply (List.nodup_append ..).mpr
        refine ⟨hnodup, List.nodup_singleton _, ?_⟩
        intro a ha hb
        rw [List.mem_singleton.mp hb] at ha
        exact hitem_notin ha

/-- The invariant is preserved along the whole fold. -/
theorem dedup_foldl_inv (items : List SynItem) :
    ∀ st : SeenMap × List SynItem, SeenInv st.1 st.2 →
      SeenInv (items.foldl dedupStep st).1 (items.foldl dedupStep st).2 := by
  induction items with
  | nil => intro st h; simpa using h
  | cons a l ih =>
    intro st h
    rw [List.foldl_cons]
    exact ih _ (dedupStep_inv st a h)

/-- The invariant holds for the final state of `deduplicateItems`. -/
theorem dedup_inv (items : List SynItem) :
    SeenInv (items.foldl dedupStep ([], [])).1 (items.foldl dedupStep ([], [])).2 := by
  apply dedup_foldl_inv
  refine ⟨List.nodup_nil, ?_, ?_, List.nodup_nil⟩
  · intro e he; cases he
  · intro x
    constructor
    · intro hx; cases hx
    · rintro ⟨k, hk⟩; cases hk

/-- The dedup output is duplicate-free. -/
theorem dedup_nodup (items : List SynItem) : (deduplicateItems items).Nodup :=
  (dedup_inv items).2.2.2

/-- Two output items with the same normalized URL coincide. -/
theorem dedup_url_injective (items : List SynItem) (x y : SynItem)
    (hx : x ∈ deduplicateItems items) (hy : y ∈ deduplicateItems items)
    (hurl : normalizeUrl x.url = normalizeUrl y.url) : x = y := by
  obtain ⟨hkeys, hkeyurl, hiff, -⟩ := dedup_inv items
  rcases (hiff x).mp hx with ⟨kx, hkx⟩
  rcases (hiff y).mp hy with ⟨ky, hky⟩
  have h1 : kx = normalizeUrl x.url := hkeyurl _ hkx
  have h2 : ky = normalizeUrl y.url := hkeyurl _ hky
  have : kx = ky := by rw [h1, h2, hurl]
  rw [this] at hkx
  exact keys_unique _ hkeys _ _ _ hkx hky

/-- Normalized URLs are pairwise distinct in the dedup output. -/
theorem dedup_pairwise_url (items : List SynItem) :
    (deduplicateItems items).Pairwise
      (fun a b => normalizeUrl a.url ≠ normalizeUrl b.url) := by
  have hnd : (deduplicateItems items).Nodup := dedup_nodup items
  refine List.Pairwise.imp_of_mem ?_ hnd
  intro a b ha hb hne hurl
  exact hne (dedup_url_injective items a b ha hb hurl)

/-- Every output item of `deduplicateItems` comes from the input. -/
theorem dedup_subset (items : List SynItem) :
    ∀ x ∈ deduplicateItems items, x ∈ items := by
  suffices h : ∀ (l : List SynItem) (st : SeenMap × List SynItem),
      ∀ x ∈ (l.foldl dedupStep st).2, x ∈ st.2 ∨ x ∈ l by
    intro x hx
    rcases h items ([], []) x hx with h2 | h2
    · cases h2
    · exact h2
  intro l
  induction l with
  | nil => intro st x hx; exact Or.inl (by simpa using hx)
  | cons a t ih =>
    intro st x hx
    rw [List.foldl_cons] at hx
    rcases ih _ x hx with h2 | h2
    · -- x in (dedupStep st a).2 → x ∈ st.2 ∨ x = a
      have hstep : ∀ y ∈ (dedupStep st a).2, y ∈ st.2 ∨ y = a := by
        intro y hy
        unfold dedupStep at hy
        rcases st with ⟨seen, result⟩
        dsimp only at hy
        rcases hm : mapLookup seen (normalizeUrl a.url) with _ | existing <;>
          rw [hm] at hy
        · rcases hf : findSimilar a.title seen with _ | ⟨eu, ei⟩ <;>
            rw [hf] at hy
          · dsimp only at hy
            rcases List.mem_append.mp hy with h3 | h3
            · exact Or.inl h3
            · exact Or.inr (List.mem_singleton.mp h3)
          · dsimp only at hy
            split at hy
            · rcases replaceFirst_mem_weak _ _ _ _ hy with h3 | h3
              · exact Or.inl h3
              · exact Or.inr h3
            · exact Or.inl hy
        · dsimp only at hy
          split at hy
          · rcases replaceFirst_mem_weak _ _ _ _ hy with h3 | h3
            · exact Or.inl h3
            · exact Or.inr h3
          · exact Or.inl hy
      rcases hstep x h2 with h3 | h3
      · exact Or.inl h3
      · exact Or.inr (h3 ▸ List.mem_cons_self _ _)
    · exact Or.inr (List.mem_cons_of_mem _ h2)

/-- URL-collision tie-break on a two-element batch: the later item
wins only when it is high-priority and the first is not. -/
theorem dedup_pair (a b : SynItem) (h : normalizeUrl b.url = normalizeUrl a.url) :
    deduplicateItems [a, b] =
      if b.category = hotCategory ∧ ¬ a.category = hotCategory then [b] else [a] := by
  unfold deduplicateItems
  rw [List.foldl_cons, List.foldl_cons, List.foldl_nil]
  have h1 : dedupStep ([], []) a = ([(normalizeUrl a.url, a)], [a]) := rfl
  rw [h1]
  unfold dedupStep
  dsimp only
  have h2 : mapLookup [(normalizeUrl a.url, a)] (normalizeUrl b.url) = some a := by
    unfold mapLookup
    rw [h]
    simp [List.find?]
  rw [h2]
  dsimp only
  by_cases hc : b.category = hotCategory ∧ ¬ a.category = hotCategory
  · rw [if_pos hc, if_pos hc]
    dsimp only
    unfold replaceFirst
    rw [if_pos rfl]
  · rw [if_neg hc, if_neg hc]

/-- C8 (amended).  The output of `deduplicateItems` never contains two
distinct items with the same normalized URL, and on a URL collision the
`重要动态`-tagged item is preferred over a non-tagged one, otherwise the
first-seen item is kept.  (Title-similarity dedup gives no such global
guarantee: a high-priority replacement is not re-compared against the
other retained items; see the counterexample.) -/
theorem claim_c8_amended :
    (∀ items : List SynItem, (deduplicateItems items).Pairwise
        (fun x y => normalizeUrl x.url ≠ normalizeUrl y.url)) ∧
    (∀ a b : SynItem, normalizeUrl b.url = normalizeUrl a.url →
        deduplicateItems [a, b] =
          if b.category = hotCategory ∧ ¬ a.category = hotCategory then [b]
          else [a]) :=
  ⟨dedup_pairwise_url, dedup_pair⟩

set_option maxHeartbeats 2000000 in
/-- C8 witness: a concrete two-element URL collision where the later
high-priority item replaces the first-seen one. -/
theorem claim_c8_witness :
    deduplicateItems
      [{ title := "t1", url := "http://e.com/x", summary := "s1",
         category := "精选资讯", source := "src" },
       { title := "t2", url := "http://e.com/x/", summary := "s2",
         category := "重要动态", source := "src" }] =
      [{ title := "t2", url := "http://e.com/x/", summary := "s2",
         category := "重要动态", source := "src" }] := by
  have h := claim_c8_amended.2
    { title := "t1", url := "http://e.com/x", summary := "s1",
      category := "精选资讯", source := "src" }
    { title := "t2", url := "http://e.com/x/", summary := "s2",
      category := "重要动态", source := "src" }
    (by decide)
  rw [if_pos (by constructor <;> decide)] at h
  exact h

set_option maxHeartbeats 4000000 in
/-- C8 counterexample.  The claim's no-two-similar-titles part is false:
a later high-priority item similar to the first item replaces it without
being compared to the second, so the output retains two items with
similar titles. -/
theorem claim_c8_counterexample :
    deduplicateItems
      [{ title := "alpha market", url := "http://e.com/a", summary := "sa",
         category := "精选资讯", source := "x" },
       { title := "beta futures", url := "http://e.com/b", summary := "sb",
         category := "精选资讯", source := "x" },
       { title := "alpha market beta futures", url := "http://e.com/c",
         summary := "sc", category := "重要动态", source := "x" }] =
      [{ title := "alpha market beta futures", url := "http://e.com/c",
         summary := "sc", category := "重要动态", source := "x" },
       { title := "beta futures", url := "http://e.com/b", summary := "sb",
         category := "精选资讯", source := "x" }] ∧
    titlesAreSimilar "alpha market beta futures" "beta futures" = true := by
  constructor
  · rfl
  · rfl

/-! ## C3, C4, C5: synthesizer output analysis -/

/-- Every item a cascade step returns passed the truthiness filter. -/
theorem validItemsOf_valid (c : String) (v : List Json)
    (h : validItemsOf c = some v) :
    ∀ j ∈ v, (fieldTruthy j "title" && fieldTruthy j "url" &&
      fieldTruthy j "summary") = true := by
  unfold validItemsOf at h
  cases hp : parseJsonStr c with
  | none => rw [hp] at h; cases h
  | some parsed =>
    rw [hp] at h
    dsimp only at h
    split at h
    · cases h
    · rename_i x rest heq
      cases h
      intro j hj
      rw [← heq] at hj
      exact (List.mem_filter.mp hj).2

/-- Every item the cascade returns passed the truthiness filter. -/
theorem firstValid_valid (cs : List String) (v : List Json)
    (h : firstValid cs = some v) :
    ∀ j ∈ v, (fieldTruthy j "title" && fieldTruthy j "url" &&
      fieldTruthy j "summary") = true := by
  induction cs with
  | nil => cases h
  | cons c rest ih =>
    unfold firstValid at h
    cases hv : validItemsOf c with
    | some w =>
      rw [hv] at h
      cases h
      exact validItemsOf_valid c _ hv
    | none =>
      rw [hv] at h
      exact ih h

/-- Each decoded record comes from some parsed item. -/
theorem decodeAll_mem (l : List Json) (out : List SynItem)
    (h : decodeAll l = some out) :
    ∀ x ∈ out, ∃ j ∈ l, jsonToSynItem j = some x := by
  induction l generalizing out with
  | nil =>
    cases h
    intro x hx
    cases hx
  | cons j rest ih =>
    unfold decodeAll at h
    cases hj : jsonToSynItem j with
    | none => rw [hj] at h; cases h
    | some y =>
      rw [hj] at h
      cases hr : decodeAll rest with
      | none => rw [hr] at h; cases h
      | some ys =>
        rw [hr] at h
        cases h
        intro x hx
        rcases List.mem_cons.mp hx with rfl | hx'
        · exact ⟨j, List.mem_cons_self _ _, hj⟩
        · rcases ih ys hr x hx' with ⟨j2, hj2, hd⟩
          exact ⟨j2, List.mem_cons_of_mem _ hj2, hd⟩

/-- A string-field hit exposes the underlying JSON string. -/
theorem jsonStrField_some (j : Json) (k t : String)
    (h : jsonStrField j k = some t) : getField j k = some (Json.str t) := by
  unfold jsonStrField at h
  split at h
  · rename_i s heq
    cases h
    exact heq
  · cases h

/-- A decoded record of a truthy-valid item has nonempty title, url,
and summary. -/
theorem decode_nonempty (j : Json) (x : SynItem)
    (hd : jsonToSynItem j = some x)
    (ht : (fieldTruthy j "title" && fieldTruthy j "url" &&
      fieldTruthy j "summary") = true) :
    x.title ≠ "" ∧ x.url ≠ "" ∧ x.summary ≠ "" := by
  unfold jsonToSynItem at hd
  split at hd
  · rename_i tv uv sv heqt hequ heqs
    injection hd with hx
    subst hx
    simp only [Bool.and_eq_true] at ht
    obtain ⟨⟨ht1, ht2⟩, ht3⟩ := ht
    unfold fieldTruthy at ht1 ht2 ht3
    rw [jsonStrField_some j "title" tv heqt] at ht1
    rw [jsonStrField_some j "url" uv hequ] at ht2
    rw [jsonStrField_some j "summary" sv heqs] at ht3
    simp only [Option.elim_some, jsonTruthy] at ht1 ht2 ht3
    exact ⟨of_decide_eq_true ht1, of_decide_eq_true ht2, of_decide_eq_true ht3⟩
  · cases hd

/-- C3 (amended).  The synthesizer performs no verification against the
input URLs: the only filter on parsed items is truthiness of `title`,
`url`, `summary`, so every structured item it returns has nonempty
title, url, and summary — but nothing ties the url to the input set
(see the counterexample). -/
theorem claim_c3_amended (raw : String) (out : List SynItem)
    (h : structuredOutput raw = some out) :
    ∀ x ∈ out, x.title ≠ "" ∧ x.url ≠ "" ∧ x.summary ≠ "" := by
  intro x hx
  unfold structuredOutput at h
  cases hp : parseStructuredItems raw with
  | none => rw [hp] at h; cases h
  | some valid =>
    rw [hp] at h
    dsimp only at h
    cases hdec : decodeAll valid with
    | none => rw [hdec] at h; cases h
    | some decoded =>
      rw [hdec] at h
      dsimp only at h
      cases h
      have hx2 : x ∈ decoded := dedup_subset decoded x hx
      rcases decodeAll_mem valid decoded hdec x hx2 with ⟨j, hj, hd⟩
      unfold parseStructuredItems at hp
      exact decode_nonempty j x hd (firstValid_valid _ valid hp j hj)

set_option maxRecDepth 8000 in
set_option maxHeartbeats 4000000 in
/-- C3 counterexample.  A model reply whose only URL appears in no input
item still produces that structured item: `generateDigest`'s structured
result depends only on the reply text, never on the input URLs, so a
fabricated URL is not dropped. -/
theorem claim_c3_counterexample :
    structuredOutput
      "[\x7b\"title\":\"Fabricated story\",\"url\":\"http://fabricated.example/z\",\"summary\":\"made up\",\"category\":\"general\",\"source\":\"s\"\x7d]" =
      some [{ title := "Fabricated story", url := "http://fabricated.example/z",
              summary := "made up", category := "general", source := "s" }] ∧
    "http://fabricated.example/z" ∉
      ["http://real.example/a", "http://real.example/b"] := by
  constructor
  · rfl
  · decide

set_option maxHeartbeats 2000000 in
/-- C3 witness: the amended theorem applied to a concrete model reply
and its decoded item. -/
theorem claim_c3_witness :
    ("T" : String) ≠ "" ∧ ("http://w.example/1" : String) ≠ "" ∧
      ("S" : String) ≠ "" :=
  claim_c3_amended
    "[\x7b\"title\":\"T\",\"url\":\"http://w.example/1\",\"summary\":\"S\",\"category\":\"general\",\"source\":\"s\"\x7d]"
    [{ title := "T", url := "http://w.example/1", summary := "S",
       category := "general", source := "s" }]
    (by rfl)
    { title := "T", url := "http://w.example/1", summary := "S",
      category := "general", source := "s" }
    (List.mem_singleton_self _)

/-- C4 (amended).  No category cap is enforced in code: the only bound
is that the high-priority items of the dedup output cannot outnumber
those of its input (the ≤4 limit exists only in the prompt text, and
the output can exceed it — see the counterexample). -/
theorem claim_c4_amended (items : List SynItem) :
    ((deduplicateItems items).filter
      (fun i => i.category = hotCategory)).length ≤
      (items.filter (fun i => i.category = hotCategory)).length := by
  have h1 : ((deduplicateItems items).filter
      (fun i => decide (i.category = hotCategory))).Nodup :=
    (dedup_nodup items).filter _
  have h2 : ∀ x ∈ (deduplicateItems items).filter
      (fun i => decide (i.category = hotCategory)),
      x ∈ items.filter (fun i => decide (i.category = hotCategory)) := by
    intro x hx
    obtain ⟨hx1, hx2⟩ := List.mem_filter.mp hx
    exact List.mem_filter.mpr ⟨dedup_subset items x hx1, hx2⟩
  calc ((deduplicateItems items).filter
      (fun i => decide (i.category = hotCategory))).length
      = ((deduplicateItems items).filter
          (fun i => decide (i.category = hotCategory))).toFinset.card :=
        (List.toFinset_card_of_nodup h1).symm
    _ ≤ ((items.filter (fun i => decide (i.category = hotCategory))).toFinset).card := by
        apply Finset.card_le_card
        intro x hx
        exact List.mem_toFinset.mpr (h2 x (List.mem_toFinset.mp hx))
    _ ≤ (items.filter (fun i => decide (i.category = hotCategory))).length :=
        List.toFinset_card_le _

set_option maxRecDepth 16000 in
set_option maxHeartbeats 8000000 in
/-- C4 counterexample.  A model reply with five valid, pairwise
dissimilar high-priority items yields five high-priority items in the
structured output: the ≤4 cap is not enforced. -/
theorem claim_c4_counterexample :
    (((structuredOutput
      "[\x7b\"title\":\"甲乙丙丁\",\"url\":\"http://e.com/1\",\"summary\":\"s1\",\"category\":\"重要动态\",\"source\":\"a\"\x7d,\x7b\"title\":\"戊己庚辛\",\"url\":\"http://e.com/2\",\"summary\":\"s2\",\"category\":\"重要动态\",\"source\":\"a\"\x7d,\x7b\"title\":\"壬癸子丑\",\"url\":\"http://e.com/3\",\"summary\":\"s3\",\"category\":\"重要动态\",\"source\":\"a\"\x7d,\x7b\"title\":\"寅卯辰巳\",\"url\":\"http://e.com/4\",\"summary\":\"s4\",\"category\":\"重要动态\",\"source\":\"a\"\x7d,\x7b\"title\":\"午未申酉\",\"url\":\"http://e.com/5\",\"summary\":\"s5\",\"category\":\"重要动态\",\"source\":\"a\"\x7d]").getD
      []).filter (fun i => i.category = hotCategory)).length = 5 ∧
    ¬ (5 ≤ 4) := by
  constructor
  · rfl
  · decide

set_option maxRecDepth 8000 in
set_option maxHeartbeats 4000000 in
/-- C5 counterexample.  On the spec's exact single-line raw reply the
whole cascade fails: every candidate equals the raw text, the key-line
quote repair never fires (the line starts with the array bracket, not a
field name), and the synthesizer falls back to raw text with zero
structured items. -/
theorem claim_c5_counterexample :
    parseStructuredItems
      "[\x7b\"title\":\"A\",\"url\":\"http://x\",\"summary\":\"He said \"hello\"\",\"category\":\"general\",\"source\":\"s\"\x7d]" =
      none ∧
    structuredOutput
      "[\x7b\"title\":\"A\",\"url\":\"http://x\",\"summary\":\"He said \"hello\"\",\"category\":\"general\",\"source\":\"s\"\x7d]" =
      none := by
  constructor
  · rfl
  · rfl

set_option maxRecDepth 8000 in
set_option maxHeartbeats 4000000 in
/-- C5 (amended).  The quote repair is line-based: with each object
field on its own line, the cascade repairs the unescaped quotes and
yields exactly one valid item whose summary contains the quoted text
(the straight quotes are escaped in the repaired JSON source). -/
theorem claim_c5_amended :
    structuredOutput
      "[\n\x7b\n\"title\": \"A\",\n\"url\": \"http://x\",\n\"summary\": \"He said \"hello\"\",\n\"category\": \"general\",\n\"source\": \"s\"\n\x7d\n]" =
      some [{ title := "A", url := "http://x", summary := "He said \"hello\"",
              category := "general", source := "s" }] ∧
    ("He said \"hello\"" : String).data.contains quoteChar = true := by
  constructor
  · rfl
  · decide

end Clawfeed

